import Mathlib

set_option linter.unusedSectionVars false

/-! ### Definitions -/

/-!
# Beth Yw? — verification of the ingestion-and-merge core

A shallow embedding of the Beth Yw Welsh statistics parser
(`src/measure.cpp`, `src/area.cpp`, `src/areas.cpp`) in Lean 4.

Modelling conventions:

* `std::map<K, V>` is modelled as a strictly-sorted association list
  `List (K × V)` (sorted by key by the same strict order the C++ map uses:
  lexicographic byte order for `std::string`, integer order for `int`).
  Insertion and in-place modification mirror `m[k] = v` and
  `m.find(k)->second = ...`.
* `double` values are modelled as `Rat`.  All operations the confirmed
  claims touch (storing, looking up and copying values) are exact, so no
  rounding behaviour is lost by this choice.
* A C++ member function that can throw is modelled as returning
  `Option String × σ` — the message of the thrown exception (or `none`)
  together with the state of the receiver when control leaves the
  function (C++ mutations that happened before the throw are kept, which
  matches in-place mutation plus exception propagation).  Accessors that
  either return a value or throw are modelled as `Except String α`.
* `::tolower` (C locale) maps the ASCII letters `A`–`Z` to `a`–`z` and
  leaves every other character unchanged; it is modelled per `Char`.
  Multi-byte text differs between C++ (byte-wise) and Lean (code points),
  but no claim depends on non-ASCII input.
-/

/-! ## Characters and strings -/

/-- `::tolower` in the C locale: maps `A`–`Z` (65–90) to `a`–`z`, leaves
every other character unchanged. -/
def ctolower (c : Char) : Char :=
  if 65 ≤ c.toNat ∧ c.toNat ≤ 90 then Char.ofNat (c.toNat + 32) else c

/-- `std::transform(s.begin(), s.end(), s.begin(), ::tolower)`. -/
def strToLower (s : String) : String :=
  String.mk (s.data.map ctolower)

theorem char_eq_of_toNat_eq {a b : Char} (h : a.toNat = b.toNat) : a = b :=
  Char.eq_of_val_eq (UInt32.ext h)

/-! ## A model of `std::map`

A strict comparison on keys, packaged with the properties that the proofs
need (transitivity, asymmetry and totality on distinct keys). -/

class KeyCmp (K : Type) where
  ltb : K → K → Bool
  ltb_trans : ∀ a b c, ltb a b = true → ltb b c = true → ltb a c = true
  ltb_asymm : ∀ a b, ltb a b = true → ltb b a = false
  ltb_total : ∀ a b, ltb a b = false → a ≠ b → ltb b a = true

/-- Lexicographic strict comparison of character lists by code point, the
order `std::string`'s `operator<` induces on ASCII text. -/
def charsLt : List Char → List Char → Bool
  | _, [] => false
  | [], _ :: _ => true
  | a :: as, b :: bs =>
    decide (a.toNat < b.toNat) || (decide (a.toNat = b.toNat) && charsLt as bs)

theorem charsLt_trans : ∀ x y z, charsLt x y = true → charsLt y z = true →
    charsLt x z = true := by
  intro x
  induction x with
  | nil =>
    intro y z hxy hyz
    cases z with
    | nil => cases y <;> simp [charsLt] at hxy hyz
    | cons c cs => simp [charsLt]
  | cons a as ih =>
    intro y z hxy hyz
    cases y with
    | nil => simp [charsLt] at hxy
    | cons b bs =>
      cases z with
      | nil => simp [charsLt] at hyz
      | cons c cs =>
        simp only [charsLt, Bool.or_eq_true, Bool.and_eq_true, decide_eq_true_eq] at *
        rcases hxy with h1 | ⟨h1, h1'⟩ <;> rcases hyz with h2 | ⟨h2, h2'⟩
        · exact Or.inl (by omega)
        · exact Or.inl (by omega)
        · exact Or.inl (by omega)
        · exact Or.inr ⟨by omega, ih bs cs h1' h2'⟩

theorem charsLt_asymm : ∀ x y, charsLt x y = true → charsLt y x = false := by
  intro x
  induction x with
  | nil =>
    intro y hxy
    cases y with
    | nil => simp [charsLt] at hxy
    | cons b bs => simp [charsLt]
  | cons a as ih =>
    intro y hxy
    cases y with
    | nil => simp [charsLt] at hxy
    | cons b bs =>
      simp only [charsLt, Bool.or_eq_true, Bool.and_eq_true, decide_eq_true_eq,
        Bool.or_eq_false_iff, Bool.and_eq_false_iff, decide_eq_false_iff_not] at *
      rcases hxy with h | ⟨h, h'⟩
      · exact ⟨by omega, Or.inl (by omega)⟩
      · exact ⟨by omega, Or.inr (ih bs h')⟩

theorem charsLt_total : ∀ x y, charsLt x y = false → x ≠ y → charsLt y x = true := by
  intro x
  induction x with
  | nil =>
    intro y hxy hne
    cases y with
    | nil => exact absurd rfl hne
    | cons b bs => simp [charsLt] at hxy
  | cons a as ih =>
    intro y hxy hne
    cases y with
    | nil => simp [charsLt]
    | cons b bs =>
      simp only [charsLt, Bool.or_eq_false_iff, Bool.and_eq_false_iff,
        decide_eq_false_iff_not, Bool.or_eq_true, Bool.and_eq_true,
        decide_eq_true_eq] at *
      rcases hxy with ⟨h1, h2⟩
      rcases h2 with h2 | h2
      · exact Or.inl (by omega)
      · by_cases hab : a.toNat = b.toNat
        · have hab' : a = b := char_eq_of_toNat_eq hab
          subst hab'
          have hne' : as ≠ bs := by
            intro he
            exact hne (by rw [he])
          exact Or.inr ⟨rfl, ih bs h2 hne'⟩
        · exact Or.inl (by omega)

instance : KeyCmp String where
  ltb a b := charsLt a.data b.data
  ltb_trans a b c := charsLt_trans a.data b.data c.data
  ltb_asymm a b := charsLt_asymm a.data b.data
  ltb_total a b h hne := charsLt_total a.data b.data h (by
    intro he
    apply hne
    cases a
    cases b
    exact congrArg String.mk he)

instance : KeyCmp Int where
  ltb a b := decide (a < b)
  ltb_trans a b c h1 h2 := by
    simp only [decide_eq_true_eq] at *
    omega
  ltb_asymm a b h := by
    simp only [decide_eq_true_eq, decide_eq_false_iff_not] at *
    omega
  ltb_total a b h1 h2 := by
    simp only [decide_eq_true_eq, decide_eq_false_iff_not] at *
    omega

section MapModel

variable {K V : Type} [DecidableEq K] [KeyCmp K]

/-- `m.find(k)` followed by `->second` — first entry with the given key. -/
def mget : List (K × V) → K → Option V
  | [], _ => none
  | (k', v') :: t, k => if k' = k then some v' else mget t k

/-- `m[k] = v` on a sorted map: insert at the sorted position, or replace
the existing entry for the key. -/
def mset : List (K × V) → K → V → List (K × V)
  | [], k, v => [(k, v)]
  | (k', v') :: t, k, v =>
    if KeyCmp.ltb k k' then (k, v) :: (k', v') :: t
    else if k = k' then (k, v) :: t
    else (k', v') :: mset t k v

/-- In-place update of the entry for `k` (`m.find(k)->second.f()`); the map
is returned unchanged if the key is absent. -/
def mmod : List (K × V) → K → (V → V) → List (K × V)
  | [], _, _ => []
  | (k', v') :: t, k, f => if k' = k then (k', f v') :: t else (k', v') :: mmod t k f

/-- Like `mmod` for an update that can throw: the update function returns
the exception message (if any) together with the updated value; mutations
made before the throw are kept. -/
def mmodE {E : Type} : List (K × V) → K → (V → Option E × V) → Option E × List (K × V)
  | [], _, _ => (none, [])
  | (k', v') :: t, k, f =>
    if k' = k then ((f v').1, (k', (f v').2) :: t)
    else ((mmodE t k f).1, (k', v') :: (mmodE t k f).2)

/-- The `std::map` representation invariant: keys strictly increasing. -/
def WFmap (l : List (K × V)) : Prop :=
  l.Pairwise (fun p q => KeyCmp.ltb p.1 q.1 = true)

instance (l : List (K × V)) : Decidable (WFmap l) := by
  unfold WFmap
  infer_instance

/-- Right-biased choice on options (`some` on the left wins). -/
def optOr {α : Type} : Option α → Option α → Option α
  | some v, _ => some v
  | none, b => b

/-- The upsert loop `for (y, v) in L: m[y] = v` folded over a map. -/
def fset (d : List (K × V)) (L : List (K × V)) : List (K × V) :=
  L.foldl (fun acc p => mset acc p.1 p.2) d

end MapModel

/-! ## `Measure` (measure.h / measure.cpp)

A `Measure` holds a codename, a display label and the year→value series
(`std::map<int, double>`, modelled as a sorted association list with `Rat`
values).  The private member `std::string name` declared in measure.h is
never read or written by any member function and is omitted. -/

structure Measure where
  codename : String
  label : String
  data : List (Int × Rat)
  deriving DecidableEq

/-- `Measure::Measure(codename, label)` (measure.cpp:49-52): converts the
codename to lowercase, starts with an empty series. -/
def Measure.make (codename label : String) : Measure :=
  { codename := strToLower codename, label := label, data := [] }

/-- `std::regex_match(std::to_string(key), std::regex("[1-9][0-9][0-9][0-9]"))`
(measure.cpp:144-145).  `std::to_string` prints the decimal value with no
leading zeros and a minus sign for negative numbers, so the regex matches
exactly the keys 1000..9999. -/
def Measure.yearExprMatch (k : Int) : Bool :=
  decide (1000 ≤ k ∧ k ≤ 9999)

/-- `Measure::getValue` (measure.cpp:143-151): returns the stored value when
the year is present *and* matches the four-digit regex, otherwise throws
`std::out_of_range`. -/
def Measure.getValue (m : Measure) (k : Int) : Except String Rat :=
  match mget m.data k with
  | some v =>
    if Measure.yearExprMatch k then Except.ok v
    else Except.error ("No value found for year " ++ toString k)
  | none => Except.error ("No value found for year " ++ toString k)

/-- `Measure::setValue` (measure.cpp:176-178): `data[key] = value`. -/
def Measure.setValue (m : Measure) (k : Int) (v : Rat) : Measure :=
  { m with data := mset m.data k v }

/-- `Measure::size` (measure.cpp:200-202). -/
def Measure.size (m : Measure) : Nat :=
  m.data.length

/-- The merge of one `Measure` into another: replace the label, then upsert
every (year, value) pair of the argument into this series in map order.
This is the body of `Measure::operator=` (measure.cpp:389-395).
`Measure::overwrite` is declared in measure.h:50 and called by
`Area::setMeasure` (area.cpp:177), but its definition does not appear in
the sources; `Measure::operator=` (the merge the claims cite) and the
spec's `overwriteFrom` both give exactly this body, which is used here. -/
def Measure.overwrite (m other : Measure) : Measure :=
  { m with label := other.label, data := fset m.data other.data }

/-- The `std::map` invariant of the series. -/
def Measure.WFd (m : Measure) : Prop :=
  WFmap m.data

instance (m : Measure) : Decidable (Measure.WFd m) := by
  unfold Measure.WFd
  infer_instance

/-! ## `Area` (area.h / area.cpp)

An `Area` holds the local authority code, a `std::map` of language→name
pairs and a `std::map` of codename→`Measure` pairs. -/

structure Area where
  localAuthorityCode : String
  names : List (String × String)
  measures : List (String × Measure)
  deriving DecidableEq

/-- `Area::Area(localAuthorityCode)` (area.cpp:38). -/
def Area.make (code : String) : Area :=
  { localAuthorityCode := code, names := [], measures := [] }

/-- `std::regex_match(lang, std::regex("[a-z][a-z][a-z]"))` (area.cpp:111-112):
a full match — exactly three characters, each in `a`–`z`. -/
def langExprMatch (s : String) : Bool :=
  decide (s.data.length = 3) && s.data.all (fun c => decide (97 ≤ c.toNat) && decide (c.toNat ≤ 122))

/-- `Area::setName` (area.cpp:109-115): lowercase the language code, throw
`std::invalid_argument` unless it is three alphabetic (now lowercase)
letters, else store `names[lang] = name`. -/
def Area.setName (a : Area) (lang name : String) : Option String × Area :=
  if langExprMatch (strToLower lang) then
    (none, { a with names := mset a.names (strToLower lang) name })
  else (some "Area::setName: Language code must be three alphabetical letters only", a)

/-- `Area::getName` (area.cpp:77-83): no case folding on lookup; throws
`std::out_of_range` when the language key is absent. -/
def Area.getName (a : Area) (lang : String) : Except String String :=
  match mget a.names lang with
  | some n => Except.ok n
  | none => Except.error ("No name in language " ++ lang)

/-- `Area::getMeasure` (area.cpp:139-145). -/
def Area.getMeasure (a : Area) (key : String) : Except String Measure :=
  match mget a.measures key with
  | some m => Except.ok m
  | none => Except.error ("No measure found matching " ++ key)

/-- `Area::setMeasure` (area.cpp:174-181): lowercase the codename; if a
`Measure` with that codename exists, merge the incoming one into it via
`Measure::overwrite`, otherwise insert it. -/
def Area.setMeasure (a : Area) (codename : String) (m : Measure) : Area :=
  match mget a.measures (strToLower codename) with
  | some _ =>
    { a with measures := mmod a.measures (strToLower codename) (fun ex => ex.overwrite m) }
  | none => { a with measures := mset a.measures (strToLower codename) m }

/-- `Area::size` (area.cpp:203-205). -/
def Area.size (a : Area) : Nat :=
  a.measures.length

/-- The names loop of `Area::overwrite` (area.cpp:290-292): `setName` for
each entry of the other map in key order; a thrown `std::invalid_argument`
propagates, aborting the loop (mutations already made are kept). -/
def Area.setNamesLoop : Area → List (String × String) → Option String × Area
  | a, [] => (none, a)
  | a, (l, n) :: rest =>
    match a.setName l n with
    | (some e, a') => (some e, a')
    | (none, a') => Area.setNamesLoop a' rest

/-- The measures loop of `Area::overwrite` (area.cpp:294-296): `setMeasure`
for each entry of the other map in key order (never throws). -/
def Area.setMeasuresLoop (a : Area) (L : List (String × Measure)) : Area :=
  L.foldl (fun ar p => ar.setMeasure p.1 p.2) a

/-- `Area::overwrite` (area.cpp:289-299): union the names (via `setName`)
then the measures (via `setMeasure`), the incoming data winning. -/
def Area.overwrite (a other : Area) : Option String × Area :=
  match Area.setNamesLoop a other.names with
  | (some e, a') => (some e, a')
  | (none, a') => (none, Area.setMeasuresLoop a' other.measures)

/-- The class invariant of every `Area` reachable through the C++ API:
both maps sorted; every names key was stored by `setName`, so it passed the
three-lowercase-letters regex; every measures key was stored by
`setMeasure`, so it is its own lowercase; every stored series is sorted. -/
def Area.WF (a : Area) : Prop :=
  WFmap a.names ∧ (∀ p ∈ a.names, langExprMatch p.1 = true) ∧
  WFmap a.measures ∧ (∀ p ∈ a.measures, strToLower p.1 = p.1 ∧ WFmap p.2.data)

instance (a : Area) : Decidable (Area.WF a) := by
  unfold Area.WF
  infer_instance

/-- The right-biased merge the measures loop performs on one lookup. -/
def mergeOpt (old new : Option Measure) : Option Measure :=
  match new with
  | some m =>
    some (match old with
          | some ex => ex.overwrite m
          | none => m)
  | none => old

/-! ## `Areas` (areas.h / areas.cpp)

The top-level collection: `AreasContainer` is `std::map<std::string, Area>`
(areas.h:48). -/

/-- `Areas::setArea` (areas.cpp:66-72): if an `Area` with the key exists,
merge the incoming one into it via `Area::overwrite`; otherwise insert. -/
def Areas.setArea (st : List (String × Area)) (k : String) (a : Area) :
    Option String × List (String × Area) :=
  match mget st k with
  | some _ => mmodE st k (fun e => e.overwrite a)
  | none => (none, mset st k a)

/-- `Areas::getArea` (areas.cpp:96-102). -/
def Areas.getArea (st : List (String × Area)) (k : String) : Except String Area :=
  match mget st k with
  | some a => Except.ok a
  | none => Except.error ("No area found matching " ++ k)

/-- `Areas::size` (areas.cpp:119-121). -/
def Areas.size (st : List (String × Area)) : Nat :=
  st.length

/-- The collection invariant: a sorted map whose stored `Area`s satisfy
the `Area` class invariant. -/
def Areas.WF (st : List (String × Area)) : Prop :=
  WFmap st ∧ ∀ p ∈ st, Area.WF p.2

instance (st : List (String × Area)) : Decidable (Areas.WF st) := by
  unfold Areas.WF
  infer_instance

/-- The claim's hypothesis on language codes: exactly three characters,
each an ASCII letter of either case. -/
def isAlpha3 (s : String) : Bool :=
  decide (s.data.length = 3) && s.data.all (fun c =>
    (decide (65 ≤ c.toNat) && decide (c.toNat ≤ 90)) ||
    (decide (97 ≤ c.toNat) && decide (c.toNat ≤ 122)))

/-! ## Filters and substring matching (areas.cpp) -/

/-- Prefix test on character lists. -/
def isPrefixChars : List Char → List Char → Bool
  | [], _ => true
  | _ :: _, [] => false
  | a :: as, b :: bs => (a == b) && isPrefixChars as bs

/-- `haystack.find(needle) != std::string::npos`: some suffix of the
haystack starts with the needle; `find("")` returns 0, never `npos`. -/
def containsChars : List Char → List Char → Bool
  | [], needle => needle.isEmpty
  | c :: t, needle => isPrefixChars needle (c :: t) || containsChars t needle

/-- `Areas::contains` (areas.cpp:945-949): lowercase both strings, then
`base.find(search) != npos` — a case-insensitive substring test. -/
def Areas.contains (base search : String) : Bool :=
  containsChars (strToLower base).data (strToLower search).data

/-- The year-filter test of the JSON reader (areas.cpp:339-345): the value
is inserted when the filter pointer is null, the year lies in the closed
range, or the range is the sentinel (0, 0).  Years are `unsigned int`. -/
def yearFilterPass (yf : Option (Nat × Nat)) (year : Nat) : Bool :=
  match yf with
  | none => true
  | some (lo, hi) =>
    (decide (lo ≤ year) && decide (year ≤ hi)) || (decide (lo = 0) && decide (hi = 0))

/-- The measure-filter test of the JSON reader (areas.cpp:347-353):
`setMeasure` is called when the filter pointer is null, the (lowercased)
measure code is a member, or the set is empty.  The `unordered_set` is
modelled as a list; only membership and emptiness are inspected here. -/
def measureFilterPass (mf : Option (List String)) (code : String) : Bool :=
  match mf with
  | none => true
  | some s => decide (code ∈ s) || s.isEmpty

/-- One record of the JSON `value` list, after field extraction.  The raw
nlohmann access `data[cols.at(...)]`, the year parse (`safeStringToInt`,
whose `int` result is converted to `unsigned int`) and the numeric-or-
string value read (`retrieveMeasureValueFromJSON`) are performed through
the external JSON library; the record carries their results.
`measureCodeResolved` is the string `retrieveMeasureCodeFromJSON` resolves
(the record's MEASURE_CODE field, or the fixed SINGLE_MEASURE_CODE entry
of the column mapping) *before* its lowercase transform, which is applied
in the record-processing step below. -/
structure JsonRecord where
  authCode : String
  authNameEng : String
  measureCodeResolved : String
  measureName : String
  year : Nat
  value : Rat

/-- The area-filter loop of the JSON reader (areas.cpp:361-368): for every
term of the filter set, if the authority code or the English name contains
the term the record's area is upserted — `setArea` runs once per matching
term.  The `unordered_set` iteration order (unspecified in C++) is the
list order; a `setArea` exception propagates, aborting the loop. -/
def areaFilterLoopJSON (code nameEng : String) (area : Area) :
    List String → List (String × Area) → Option String × List (String × Area)
  | [], st => (none, st)
  | t :: rest, st =>
    if Areas.contains code t || Areas.contains nameEng t then
      match Areas.setArea st code area with
      | (some e, st') => (some e, st')
      | (none, st') => areaFilterLoopJSON code nameEng area rest st'
    else areaFilterLoopJSON code nameEng area rest st

/-- The per-record body of `Areas::populateFromWelshStatsJSON`
(areas.cpp:320-369): build a fresh area and set its English name (the
code `"eng"` always passes the regex, and the try/catch swallows the
exception otherwise), lowercase the resolved measure code (the transform
in `retrieveMeasureCodeFromJSON`, areas.cpp:394), build the measure, then
apply the three filters independently in order: the year filter guards
only `setValue`, the measure filter guards only `setMeasure`, the area
filter guards only the final `setArea` upsert. -/
def processRecord (af mf : Option (List String)) (yf : Option (Nat × Nat))
    (st : List (String × Area)) (r : JsonRecord) :
    Option String × List (String × Area) :=
  let area1 := ((Area.make r.authCode).setName "eng" r.authNameEng).2
  let mcode := strToLower r.measureCodeResolved
  let measure1 :=
    if yearFilterPass yf r.year then (Measure.make mcode r.measureName).setValue
      (Int.ofNat r.year) r.value
    else Measure.make mcode r.measureName
  let area2 := if measureFilterPass mf mcode then area1.setMeasure mcode measure1 else area1
  match af with
  | none => Areas.setArea st r.authCode area2
  | some ts =>
    if ts.isEmpty then Areas.setArea st r.authCode area2
    else areaFilterLoopJSON r.authCode r.authNameEng area2 ts st

/-- The pass-condition of the area-filter loop in
`populateFromAuthorityCodeCSV` (areas.cpp:195-201): some filter term is a
case-insensitive substring of the code, the English name or the Welsh
name of the row. -/
def authorityCSVAreaMatch (ts : List String) (code nameEng nameCym : String) : Bool :=
  ts.any (fun t => Areas.contains code t || Areas.contains nameEng t || Areas.contains nameCym t)

/-- The pass-condition of the area-filter loop in the JSON reader
(areas.cpp:362-367): some filter term is a case-insensitive substring of
the authority code or the English name. -/
def welshJSONAreaMatch (ts : List String) (code nameEng : String) : Bool :=
  ts.any (fun t => Areas.contains code t || Areas.contains nameEng t)

/-- The pass-condition of the area-filter loop in
`populateFromAuthorityByYearCSV` (areas.cpp:540-543): some filter term is
a case-insensitive substring of the authority code. -/
def byYearCSVAreaMatch (ts : List String) (code : String) : Bool :=
  ts.any (fun t => Areas.contains code t)

/-! ## JSON export (`Areas::toJSON`, areas.cpp:979-992) -/

/-- An abstract JSON value — the shape of the nlohmann tree `toJSON`
builds and dumps (nlohmann objects keep their keys sorted). -/
inductive JVal where
  | str (s : String)
  | num (q : Rat)
  | obj (fields : List (String × JVal))
  | arr (items : List JVal)

/-- Modelled from the spec: `Area::getJsonNames` is called by
`Areas::toJSON` (areas.cpp:987) but its definition is absent from the
sources; per spec §4.5/§6 it is the object of all language→name pairs. -/
def Area.getJsonNames (a : Area) : JVal :=
  JVal.obj (a.names.map (fun p => (p.1, JVal.str p.2)))

/-- Modelled from the spec: `Measure::getJsonMeasure` is declared
(measure.h:51) with no definition in the sources; per spec §6 a measure
exports as `{label, values: {year: value, ...}}`. -/
def Measure.getJsonMeasure (m : Measure) : JVal :=
  JVal.obj [("label", JVal.str m.label),
            ("values", JVal.obj (m.data.map (fun p => (toString p.1, JVal.num p.2))))]

/-- Modelled from the spec: `Area::getJsonMeasures` is called by
`Areas::toJSON` (areas.cpp:986) but its definition is absent from the
sources; per spec §6 it maps each codename to its measure's export. -/
def Area.getJsonMeasures (a : Area) : JVal :=
  JVal.obj (a.measures.map (fun p => (p.1, p.2.getJsonMeasure)))

/-- `Areas::toJSON` (areas.cpp:979-992): an empty collection returns the
empty object (the literal string "{}"); otherwise one entry per area
keyed by authority code, the `measures` field added only when the area
has measures (areas.cpp:985-986), the `names` field always added
(areas.cpp:987); "measures" sorts before "names" in the dumped object. -/
def Areas.toJSON (st : List (String × Area)) : JVal :=
  if st.isEmpty then JVal.obj []
  else JVal.obj (st.map (fun p =>
    (p.1, JVal.obj
      ((if p.2.measures.isEmpty then [] else [("measures", p.2.getJsonMeasures)])
        ++ [("names", p.2.getJsonNames)]))))

/-- Field lookup in an exported JSON object. -/
def JVal.getField : JVal → String → Option JVal
  | JVal.obj fields, k => mget fields k
  | _, _ => none

/-! ## Streams and ingestion (`Areas::populate` and the readers) -/

/-- A source stream: the `badbit` flag, the text split into lines (as
`std::getline` would read them), and — for the JSON reader — the result
of `nlohmann::json::parse` over the whole contents, performed by the
external JSON library: `none` models a parse exception, `some records`
the `value` list with fields extracted as described at `JsonRecord`. -/
structure RawSource where
  bad : Bool
  lines : List String
  jsonParsed : Option (List JsonRecord)

/-- `Areas::checkFileStatus` (areas.cpp:850-858): throws when the stream
is bad; reads the first line (`getline` on an exhausted stream leaves the
string empty); throws when that line is empty; then rewinds
(`seekg(0)`), so readers start from the beginning again. -/
def Areas.checkFileStatus (s : RawSource) : Option String :=
  if s.bad then some "Failed to open file"
  else if (s.lines.headD "") = "" then some "File has no content"
  else none

/-- Modelled from the spec: the column-role enumeration
`BethYw::SourceColumn` is declared in datasets.h, which is absent from
the sources; the roles are those the spec lists in §6 and the readers
use. -/
inductive SourceColumn where
  | AUTH_CODE
  | AUTH_NAME_ENG
  | AUTH_NAME_CYM
  | MEASURE_CODE
  | MEASURE_NAME
  | SINGLE_MEASURE_CODE
  | SINGLE_MEASURE_NAME
  | YEAR
  | VALUE
  deriving DecidableEq

/-- `cols.at(c)`: `std::map::at` throws `std::out_of_range` when the role
is absent from the mapping. -/
def colsAt (cols : SourceColumn → Option String) (c : SourceColumn) : Except String String :=
  match cols c with
  | some s => Except.ok s
  | none => Except.error "SourceColumnMapping: column not found"

/-- Modelled from the spec: `BethYw::SourceDataType` is declared in
datasets.h (absent from the sources); the three tags `Areas::populate`
dispatches on, plus a default that reaches its `else` throw. -/
inductive SourceDataType where
  | AuthorityCodeCSV
  | AuthorityByYearCSV
  | WelshStatsJSON
  | NoneSelected

/-- The token loop of `Areas::getLineTokens` (areas.cpp:877-890):
repeated `std::getline(stream, token, delim)` — no final token is
produced when the line ends in the delimiter, and an empty line yields no
tokens. -/
def getlineSplitGo (delim : Char) : List Char → List Char → List (List Char)
  | [], cur => [cur.reverse]
  | c :: rest, cur =>
    if c = delim then
      cur.reverse :: (if rest.isEmpty then [] else getlineSplitGo delim rest [])
    else getlineSplitGo delim rest (c :: cur)

/-- `Areas::getLineTokens` (areas.cpp:877-890). -/
def Areas.getLineTokens (line : String) (delim : Char) : List String :=
  if line.data.isEmpty then []
  else (getlineSplitGo delim line.data []).map String.mk

/-- Value of the leading run of decimal digits, `none` when there is
none. -/
def digitsVal (cs : List Char) : Option Nat :=
  if (cs.takeWhile Char.isDigit).isEmpty then none
  else some ((cs.takeWhile Char.isDigit).foldl (fun n c => n * 10 + (c.toNat - 48)) 0)

/-- `std::stoi` as `parseYearColumns` uses it: skip leading whitespace,
optional sign, then at least one decimal digit (trailing characters
ignored); `none` models the thrown `std::invalid_argument`.  Out-of-range
magnitudes are not modelled — no claim depends on them. -/
def stoiModel (s : String) : Option Int :=
  match s.data.dropWhile (fun c => c == ' ' || c == '\t' || c == '\n' || c == '\r') with
  | '-' :: rest => (digitsVal rest).map (fun n => -(Int.ofNat n))
  | '+' :: rest => (digitsVal rest).map Int.ofNat
  | rest => (digitsVal rest).map Int.ofNat

/-- The `int` → `unsigned int` conversion applied when a parsed year is
pushed into the `std::vector<unsigned int>` (modular, 32-bit). -/
def intToUnsigned (n : Int) : Nat :=
  (n % 4294967296).toNat

/-- The loop of `Areas::parseYearColumns` (areas.cpp:567-578): `std::stoi`
on each header cell after the first; a conversion failure returns the
years collected so far (the catch block). -/
def parseYearColumnsGo : List String → List Nat
  | [] => []
  | t :: ts =>
    match stoiModel t with
    | none => []
    | some n => intToUnsigned n :: parseYearColumnsGo ts

/-- `Areas::parseYearColumns` (areas.cpp:567-578). -/
def Areas.parseYearColumns (tokens : List String) : List Nat :=
  parseYearColumnsGo tokens.tail

/-- `operator>>(std::istream&, double)` on a CSV cell: optional sign,
integer digits, optional fraction; a failed extraction stores 0.0
(C++11).  Exponents and special values are not modelled — no claim
depends on them. -/
def readDoubleModel (s : String) : Rat :=
  let cs := s.data.dropWhile (fun c => c == ' ' || c == '\t' || c == '\n' || c == '\r')
  let signed : Bool × List Char :=
    match cs with
    | '-' :: r => (true, r)
    | '+' :: r => (false, r)
    | r => (false, r)
  let ip := signed.2.takeWhile Char.isDigit
  let rest := signed.2.dropWhile Char.isDigit
  if ip.isEmpty then 0
  else
    let ipv : Nat := ip.foldl (fun n c => n * 10 + (c.toNat - 48)) 0
    let fv : Rat :=
      match rest with
      | '.' :: fr =>
        ((fr.takeWhile Char.isDigit).foldl (fun n c => n * 10 + (c.toNat - 48)) 0 : Nat)
          / ((10 : Rat) ^ (fr.takeWhile Char.isDigit).length)
      | _ => 0
    (if signed.1 then -1 else 1) * ((ipv : Rat) + fv)

/-- `Areas::parseMeasureSingleCSV` (areas.cpp:647-676): build the measure
from the configured codename and label (both `cols.at` calls can throw),
then read each year column's cell as a double and insert it when the year
filter passes.  Reading `lineTokens[i + 1]` past the row's end is UB in
C++ and modelled as the empty string (which reads as 0.0). -/
def Areas.parseMeasureSingleCSV (cols : SourceColumn → Option String)
    (tokens : List String) (years : List Nat) (yf : Option (Nat × Nat)) :
    Except String Measure :=
  match colsAt cols SourceColumn.SINGLE_MEASURE_CODE with
  | Except.error e => Except.error e
  | Except.ok code =>
    match colsAt cols SourceColumn.SINGLE_MEASURE_NAME with
    | Except.error e => Except.error e
    | Except.ok nm =>
      Except.ok (years.enum.foldl
        (fun m p =>
          if yearFilterPass yf p.2 then
            m.setValue (Int.ofNat p.2) (readDoubleModel (tokens.getD (p.1 + 1) ""))
          else m)
        (Measure.make code nm))

/-- `Areas::parseAreaSingleCSV` (areas.cpp:603-623): the measure filter
guards only the measure parse and `setMeasure`; the area itself is
upserted regardless. -/
def Areas.parseAreaSingleCSV (cols : SourceColumn → Option String)
    (years : List Nat) (mf : Option (List String)) (yf : Option (Nat × Nat))
    (tokens : List String) (st : List (String × Area)) :
    Option String × List (String × Area) :=
  match mf with
  | none =>
    match Areas.parseMeasureSingleCSV cols tokens years yf with
    | Except.error e => (some e, st)
    | Except.ok m =>
      Areas.setArea st (tokens.getD 0 "")
        ((Area.make (tokens.getD 0 "")).setMeasure m.codename m)
  | some s =>
    match colsAt cols SourceColumn.SINGLE_MEASURE_CODE with
    | Except.error e => (some e, st)
    | Except.ok mc =>
      if decide (mc ∈ s) || s.isEmpty then
        match Areas.parseMeasureSingleCSV cols tokens years yf with
        | Except.error e => (some e, st)
        | Except.ok m =>
          Areas.setArea st (tokens.getD 0 "")
            ((Area.make (tokens.getD 0 "")).setMeasure m.codename m)
      else Areas.setArea st (tokens.getD 0 "") (Area.make (tokens.getD 0 ""))

/-- The per-row area-filter loop of `populateFromAuthorityByYearCSV`
(areas.cpp:540-544): the row is parsed once per matching term. -/
def byYearRowTermLoop (cols : SourceColumn → Option String) (years : List Nat)
    (mf : Option (List String)) (yf : Option (Nat × Nat)) (tokens : List String) :
    List String → List (String × Area) → Option String × List (String × Area)
  | [], st => (none, st)
  | t :: rest, st =>
    if Areas.contains (tokens.getD 0 "") t then
      match Areas.parseAreaSingleCSV cols years mf yf tokens st with
      | (some e, st') => (some e, st')
      | (none, st') => byYearRowTermLoop cols years mf yf tokens rest st'
    else byYearRowTermLoop cols years mf yf tokens rest st

/-- The row loop of `populateFromAuthorityByYearCSV` (areas.cpp:529-547). -/
def byYearRows (cols : SourceColumn → Option String) (years : List Nat)
    (af mf : Option (List String)) (yf : Option (Nat × Nat)) :
    List String → List (String × Area) → Option String × List (String × Area)
  | [], st => (none, st)
  | line :: rows, st =>
    match
      (match af with
       | none => Areas.parseAreaSingleCSV cols years mf yf (Areas.getLineTokens line ',') st
       | some s =>
         if s.isEmpty then
           Areas.parseAreaSingleCSV cols years mf yf (Areas.getLineTokens line ',') st
         else byYearRowTermLoop cols years mf yf (Areas.getLineTokens line ',') s st) with
    | (some e, st') => (some e, st')
    | (none, st') => byYearRows cols years af mf yf rows st'

/-- `Areas::populateFromAuthorityByYearCSV` (areas.cpp:507-554): check
the stream, check the header starts with the authority-code column and
has twelve cells, parse the year columns and process the rows. -/
def Areas.populateFromAuthorityByYearCSV (S : RawSource)
    (cols : SourceColumn → Option String) (af mf : Option (List String))
    (yf : Option (Nat × Nat)) (st : List (String × Area)) :
    Option String × List (String × Area) :=
  match Areas.checkFileStatus S with
  | some e => (some e, st)
  | none =>
    match colsAt cols SourceColumn.AUTH_CODE with
    | Except.error e => (some e, st)
    | Except.ok authCol =>
      if (Areas.getLineTokens (S.lines.headD "") ',').getD 0 "" = authCol then
        if (Areas.getLineTokens (S.lines.headD "") ',').length = 12 then
          byYearRows cols (Areas.parseYearColumns (Areas.getLineTokens (S.lines.headD "") ','))
            af mf yf S.lines.tail st
        else (some "Invalid number of columns", st)
      else (some ("No column found with title: " ++ authCol), st)

/-- `Areas::parseAreaFromAuthorityCodeCSV` (areas.cpp:219-228): build the
area, set its English and Welsh names and insert it directly
(`areas[code] = area`, a plain replace, not a merge).  The codes
"eng"/"cym" always pass the regex, so the catch block never fires; rows
with fewer than three cells index the token vector out of range — UB in
C++, modelled as the empty string. -/
def Areas.parseAreaFromAuthorityCodeCSV (tokens : List String)
    (st : List (String × Area)) : List (String × Area) :=
  mset st (tokens.getD 0 "")
    (((((Area.make (tokens.getD 0 "")).setName "eng" (tokens.getD 1 "")).2).setName
        "cym" (tokens.getD 2 "")).2)

/-- The per-row area-filter loop of `populateFromAuthorityCodeCSV`
(areas.cpp:195-201): the row is parsed once per matching term. -/
def authorityCSVRowTermLoop (tokens : List String) :
    List String → List (String × Area) → List (String × Area)
  | [], st => st
  | t :: rest, st =>
    if Areas.contains (tokens.getD 0 "") t || Areas.contains (tokens.getD 1 "") t ||
        Areas.contains (tokens.getD 2 "") t then
      authorityCSVRowTermLoop tokens rest (Areas.parseAreaFromAuthorityCodeCSV tokens st)
    else authorityCSVRowTermLoop tokens rest st

/-- The row loop of `populateFromAuthorityCodeCSV` (areas.cpp:186-203). -/
def authorityCSVRows (af : Option (List String)) :
    List String → List (String × Area) → List (String × Area)
  | [], st => st
  | line :: rows, st =>
    authorityCSVRows af rows
      (match af with
       | none => Areas.parseAreaFromAuthorityCodeCSV (Areas.getLineTokens line ',') st
       | some s =>
         if s.isEmpty then Areas.parseAreaFromAuthorityCodeCSV (Areas.getLineTokens line ',') st
         else authorityCSVRowTermLoop (Areas.getLineTokens line ',') s st)

/-- `Areas::populateFromAuthorityCodeCSV` (areas.cpp:166-210): this
reader does *not* call `checkFileStatus` itself; it reads the header,
requires exactly three cells whose names match the mapping, then
processes the rows. -/
def Areas.populateFromAuthorityCodeCSV (S : RawSource)
    (cols : SourceColumn → Option String) (af : Option (List String))
    (st : List (String × Area)) : Option String × List (String × Area) :=
  if (Areas.getLineTokens (S.lines.headD "") ',').length = 3 then
    match colsAt cols SourceColumn.AUTH_CODE with
    | Except.error e => (some e, st)
    | Except.ok c0 =>
      match colsAt cols SourceColumn.AUTH_NAME_ENG with
      | Except.error e => (some e, st)
      | Except.ok c1 =>
        match colsAt cols SourceColumn.AUTH_NAME_CYM with
        | Except.error e => (some e, st)
        | Except.ok c2 =>
          if (Areas.getLineTokens (S.lines.headD "") ',').getD 0 "" = c0 ∧
              (Areas.getLineTokens (S.lines.headD "") ',').getD 1 "" = c1 ∧
              (Areas.getLineTokens (S.lines.headD "") ',').getD 2 "" = c2 then
            (none, authorityCSVRows af S.lines.tail st)
          else (some "Incorrect column names", st)
  else (some "Not enough columns", st)

/-- The record loop of `populateFromWelshStatsJSON` (areas.cpp:320-369). -/
def jsonRecordsLoop (af mf : Option (List String)) (yf : Option (Nat × Nat)) :
    List JsonRecord → List (String × Area) → Option String × List (String × Area)
  | [], st => (none, st)
  | r :: rest, st =>
    match processRecord af mf yf st r with
    | (some e, st') => (some e, st')
    | (none, st') => jsonRecordsLoop af mf yf rest st'

/-- `Areas::populateFromWelshStatsJSON` (areas.cpp:300-370): check the
stream, read and parse the whole contents with the external JSON library
(carried by the source model), then process each record of the `value`
list.  The column mapping is consumed during field extraction, which the
`JsonRecord` model carries pre-applied. -/
def Areas.populateFromWelshStatsJSON (S : RawSource)
    (_cols : SourceColumn → Option String) (af mf : Option (List String))
    (yf : Option (Nat × Nat)) (st : List (String × Area)) :
    Option String × List (String × Area) :=
  match Areas.checkFileStatus S with
  | some e => (some e, st)
  | none =>
    match S.jsonParsed with
    | none => (some "nlohmann::json::parse: parse error", st)
    | some records => jsonRecordsLoop af mf yf records st

/-- `Areas::populate` with filters (areas.cpp:813-832): validate the
stream first, then dispatch on the source type. -/
def Areas.populate (S : RawSource) (type : SourceDataType)
    (cols : SourceColumn → Option String) (af mf : Option (List String))
    (yf : Option (Nat × Nat)) (st : List (String × Area)) :
    Option String × List (String × Area) :=
  match Areas.checkFileStatus S with
  | some e => (some e, st)
  | none =>
    match type with
    | SourceDataType.AuthorityCodeCSV => Areas.populateFromAuthorityCodeCSV S cols af st
    | SourceDataType.AuthorityByYearCSV =>
      Areas.populateFromAuthorityByYearCSV S cols af mf yf st
    | SourceDataType.WelshStatsJSON => Areas.populateFromWelshStatsJSON S cols af mf yf st
    | SourceDataType.NoneSelected => (some "Areas::populate: Unexpected data type", st)

/-- The unfiltered `Areas::populate` overload (areas.cpp:726-741): same
dispatch with null filter pointers. -/
def Areas.populateNoFilters (S : RawSource) (type : SourceDataType)
    (cols : SourceColumn → Option String) (st : List (String × Area)) :
    Option String × List (String × Area) :=
  match Areas.checkFileStatus S with
  | some e => (some e, st)
  | none =>
    match type with
    | SourceDataType.AuthorityCodeCSV => Areas.populateFromAuthorityCodeCSV S cols none st
    | SourceDataType.AuthorityByYearCSV =>
      Areas.populateFromAuthorityByYearCSV S cols none none none st
    | SourceDataType.WelshStatsJSON => Areas.populateFromWelshStatsJSON S cols none none none st
    | SourceDataType.NoneSelected => (some "Areas::populate: Unexpected data type", st)

/-! ### Theorems -/

theorem char_toNat_ofNat (n : Nat) (h : n < 55296) : (Char.ofNat n).toNat = n := by
  simp only [Char.ofNat, Nat.isValidChar, Char.toNat, Char.ofNatAux]
  rw [dif_pos (Or.inl h)]
  simp [UInt32.toNat]

theorem ctolower_toNat_of_upper {c : Char} (h1 : 65 ≤ c.toNat) (h2 : c.toNat ≤ 90) :
    (ctolower c).toNat = c.toNat + 32 := by
  unfold ctolower
  rw [if_pos ⟨h1, h2⟩]
  exact char_toNat_ofNat _ (by omega)

theorem ctolower_of_not_upper {c : Char} (h : ¬(65 ≤ c.toNat ∧ c.toNat ≤ 90)) :
    ctolower c = c := by
  unfold ctolower
  rw [if_neg h]

/-- `::tolower` is idempotent. -/
theorem ctolower_idem (c : Char) : ctolower (ctolower c) = ctolower c := by
  by_cases h : 65 ≤ c.toNat ∧ c.toNat ≤ 90
  · have hn : (ctolower c).toNat = c.toNat + 32 := ctolower_toNat_of_upper h.1 h.2
    apply ctolower_of_not_upper
    omega
  · rw [ctolower_of_not_upper h, ctolower_of_not_upper h]

theorem map_ctolower_idem (l : List Char) :
    (l.map ctolower).map ctolower = l.map ctolower := by
  induction l with
  | nil => rfl
  | cons c t ih => simp only [List.map_cons, ctolower_idem, ih]

theorem strToLower_idem (s : String) : strToLower (strToLower s) = strToLower s := by
  unfold strToLower
  exact congrArg String.mk (map_ctolower_idem s.data)

theorem KeyCmp.ltb_irrefl {K : Type} [KeyCmp K] (a : K) : KeyCmp.ltb a a = false := by
  cases h : KeyCmp.ltb a a with
  | false => rfl
  | true =>
    have h2 := KeyCmp.ltb_asymm a a h
    rw [h2] at h
    exact h.symm

section MapModel

variable {K V : Type} [DecidableEq K] [KeyCmp K]

theorem mset_nil (k : K) (v : V) : mset ([] : List (K × V)) k v = [(k, v)] := rfl

theorem mset_cons_lt {k k0 : K} (v v0 : V) (t : List (K × V))
    (h : KeyCmp.ltb k k0 = true) :
    mset ((k0, v0) :: t) k v = (k, v) :: (k0, v0) :: t := by
  simp [mset, h]

theorem mset_cons_eq {k k0 : K} (v v0 : V) (t : List (K × V))
    (h1 : KeyCmp.ltb k k0 = false) (h2 : k = k0) :
    mset ((k0, v0) :: t) k v = (k, v) :: t := by
  subst h2
  simp [mset, h1]

theorem mset_cons_gt {k k0 : K} (v v0 : V) (t : List (K × V))
    (h1 : KeyCmp.ltb k k0 = false) (h2 : k ≠ k0) :
    mset ((k0, v0) :: t) k v = (k0, v0) :: mset t k v := by
  simp [mset, h1, h2]

theorem mget_mset_self (l : List (K × V)) (k : K) (v : V) :
    mget (mset l k v) k = some v := by
  induction l with
  | nil => simp [mset, mget]
  | cons p t ih =>
    obtain ⟨k0, v0⟩ := p
    cases h1 : KeyCmp.ltb k k0 with
    | true => rw [mset_cons_lt v v0 t h1]; simp [mget]
    | false =>
      by_cases h2 : k = k0
      · rw [mset_cons_eq v v0 t h1 h2]; simp [mget]
      · rw [mset_cons_gt v v0 t h1 h2]
        simp only [mget, if_neg (Ne.symm h2)]
        exact ih

theorem mget_mset_ne (l : List (K × V)) (k k' : K) (v : V) (hne : k' ≠ k) :
    mget (mset l k v) k' = mget l k' := by
  induction l with
  | nil => simp [mset, mget, Ne.symm hne]
  | cons p t ih =>
    obtain ⟨k0, v0⟩ := p
    cases h1 : KeyCmp.ltb k k0 with
    | true => rw [mset_cons_lt v v0 t h1]; simp [mget, Ne.symm hne]
    | false =>
      by_cases h2 : k = k0
      · subst h2
        rw [mset_cons_eq v v0 t h1 rfl]
        simp [mget, Ne.symm hne]
      · rw [mset_cons_gt v v0 t h1 h2]
        simp only [mget]
        by_cases h3 : k0 = k'
        · simp [h3]
        · simp [h3, ih]

theorem mem_mset (l : List (K × V)) (k : K) (v : V) (p : K × V)
    (hp : p ∈ mset l k v) : p = (k, v) ∨ p ∈ l := by
  induction l with
  | nil =>
    rw [mset_nil, List.mem_singleton] at hp
    exact Or.inl hp
  | cons q t ih =>
    obtain ⟨k0, v0⟩ := q
    cases h1 : KeyCmp.ltb k k0 with
    | true =>
      rw [mset_cons_lt v v0 t h1, List.mem_cons] at hp
      exact hp
    | false =>
      by_cases h2 : k = k0
      · rw [mset_cons_eq v v0 t h1 h2, List.mem_cons] at hp
        rcases hp with h | h
        · exact Or.inl h
        · exact Or.inr (List.mem_cons_of_mem _ h)
      · rw [mset_cons_gt v v0 t h1 h2, List.mem_cons] at hp
        rcases hp with h | h
        · exact Or.inr (h ▸ List.mem_cons_self _ _)
        · rcases ih h with h' | h'
          · exact Or.inl h'
          · exact Or.inr (List.mem_cons_of_mem _ h')

theorem WFmap_mset (l : List (K × V)) (k : K) (v : V) (hwf : WFmap l) :
    WFmap (mset l k v) := by
  induction l with
  | nil => simp [mset, WFmap]
  | cons p t ih =>
    obtain ⟨k0, v0⟩ := p
    rw [WFmap, List.pairwise_cons] at hwf
    obtain ⟨hhead, htail⟩ := hwf
    cases h1 : KeyCmp.ltb k k0 with
    | true =>
      rw [WFmap, mset_cons_lt v v0 t h1, List.pairwise_cons]
      refine ⟨?_, ?_⟩
      · intro q hq
        rw [List.mem_cons] at hq
        rcases hq with h | h
        · exact h ▸ h1
        · exact KeyCmp.ltb_trans _ _ _ h1 (hhead q h)
      · rw [List.pairwise_cons]
        exact ⟨hhead, htail⟩
    | false =>
      by_cases h2 : k = k0
      · subst h2
        rw [WFmap, mset_cons_eq v v0 t h1 rfl, List.pairwise_cons]
        exact ⟨hhead, htail⟩
      · rw [WFmap, mset_cons_gt v v0 t h1 h2, List.pairwise_cons]
        refine ⟨?_, ih htail⟩
        intro q hq
        rcases mem_mset t k v q hq with h | h
        · rw [h]
          exact KeyCmp.ltb_total k k0 h1 h2
        · exact hhead q h

theorem mget_mmod_self (l : List (K × V)) (k : K) (f : V → V) (e : V)
    (h : mget l k = some e) : mget (mmod l k f) k = some (f e) := by
  induction l with
  | nil => simp [mget] at h
  | cons p t ih =>
    obtain ⟨k0, v0⟩ := p
    by_cases h0 : k0 = k
    · subst h0
      simp only [mget, if_true, eq_self_iff_true] at h
      rw [Option.some.injEq] at h
      simp [mmod, mget, h]
    · simp only [mget, if_neg h0] at h
      simp [mmod, h0, mget, ih h]

theorem mget_mmod_ne (l : List (K × V)) (k k' : K) (f : V → V) (hne : k' ≠ k) :
    mget (mmod l k f) k' = mget l k' := by
  induction l with
  | nil => simp [mmod]
  | cons p t ih =>
    obtain ⟨k0, v0⟩ := p
    by_cases h0 : k0 = k
    · subst h0
      simp [mmod, mget, Ne.symm hne]
    · simp only [mmod, if_neg h0, mget]
      by_cases h1 : k0 = k'
      · simp [h1]
      · simp [h1, ih]

theorem mmod_of_mget_none (l : List (K × V)) (k : K) (f : V → V)
    (h : mget l k = none) : mmod l k f = l := by
  induction l with
  | nil => rfl
  | cons p t ih =>
    obtain ⟨k0, v0⟩ := p
    by_cases h0 : k0 = k
    · simp [mget, h0] at h
    · simp only [mget, if_neg h0] at h
      simp [mmod, h0, ih h]

theorem mmod_id (l : List (K × V)) (k : K) (f : V → V) (e : V)
    (hget : mget l k = some e) (hf : f e = e) : mmod l k f = l := by
  induction l with
  | nil => simp [mget] at hget
  | cons p t ih =>
    obtain ⟨k0, v0⟩ := p
    by_cases h0 : k0 = k
    · subst h0
      simp only [mget, if_true, eq_self_iff_true] at hget
      rw [Option.some.injEq] at hget
      simp [mmod, hget, hf]
    · simp only [mget, if_neg h0] at hget
      simp [mmod, h0, ih hget]

theorem mget_cons_self (k : K) (v : V) (t : List (K × V)) :
    mget ((k, v) :: t) k = some v := by
  simp [mget]

theorem mget_some_mem (l : List (K × V)) (k : K) (v : V)
    (h : mget l k = some v) : (k, v) ∈ l := by
  induction l with
  | nil => simp [mget] at h
  | cons p t ih =>
    obtain ⟨k0, v0⟩ := p
    by_cases h0 : k0 = k
    · subst h0
      simp only [mget, if_true, eq_self_iff_true] at h
      rw [Option.some.injEq] at h
      rw [h]
      exact List.mem_cons_self _ _
    · simp only [mget, if_neg h0] at h
      exact List.mem_cons_of_mem _ (ih h)

theorem mget_eq_none_of_ne (l : List (K × V)) (k : K)
    (h : ∀ p ∈ l, p.1 ≠ k) : mget l k = none := by
  induction l with
  | nil => rfl
  | cons p t ih =>
    obtain ⟨k0, v0⟩ := p
    simp only [mget, if_neg (h (k0, v0) (List.mem_cons_self _ _))]
    exact ih (fun q hq => h q (List.mem_cons_of_mem _ hq))

theorem mget_tail_head_none (k0 : K) (v0 : V) (t : List (K × V))
    (hwf : WFmap ((k0, v0) :: t)) : mget t k0 = none := by
  rw [WFmap, List.pairwise_cons] at hwf
  apply mget_eq_none_of_ne
  intro p hp he
  have h := hwf.1 p hp
  rw [he] at h
  rw [KeyCmp.ltb_irrefl] at h
  exact Bool.false_ne_true h

/-- Sorted maps are extensional: equal lookups imply equal representations. -/
theorem mext (l l' : List (K × V)) (hwf : WFmap l) (hwf' : WFmap l')
    (h : ∀ k, mget l k = mget l' k) : l = l' := by
  induction l generalizing l' with
  | nil =>
    cases l' with
    | nil => rfl
    | cons p t =>
      obtain ⟨k0, v0⟩ := p
      have := h k0
      rw [mget_cons_self] at this
      simp [mget] at this
  | cons p t ih =>
    obtain ⟨k0, v0⟩ := p
    cases l' with
    | nil =>
      have := h k0
      rw [mget_cons_self] at this
      simp [mget] at this
    | cons q t' =>
      obtain ⟨k1, v1⟩ := q
      have hk : k0 = k1 := by
        by_contra hne
        have h0 : mget ((k1, v1) :: t') k0 = some v0 := by
          rw [← h k0, mget_cons_self]
        have h1 : mget ((k0, v0) :: t) k1 = some v1 := by
          rw [h k1, mget_cons_self]
        rw [WFmap, List.pairwise_cons] at hwf hwf'
        simp only [mget, if_neg hne] at h1
        simp only [mget, if_neg (Ne.symm hne)] at h0
        have m0 := mget_some_mem _ _ _ h0
        have m1 := mget_some_mem _ _ _ h1
        have l0 := hwf'.1 _ m0
        have l1 := hwf.1 _ m1
        have := KeyCmp.ltb_asymm _ _ l0
        rw [this] at l1
        exact Bool.false_ne_true l1
      subst hk
      have hv : v0 = v1 := by
        have := h k0
        rw [mget_cons_self, mget_cons_self, Option.some.injEq] at this
        exact this
      subst hv
      have htn := mget_tail_head_none k0 v0 t hwf
      have htn' := mget_tail_head_none k0 v0 t' hwf'
      rw [WFmap, List.pairwise_cons] at hwf hwf'
      refine congrArg (List.cons (k0, v0)) (ih t' hwf.2 hwf'.2 ?_)
      intro j
      by_cases hj : j = k0
      · rw [hj, htn, htn']
      · have := h j
        simp only [mget, if_neg (Ne.symm hj)] at this
        exact this

theorem fset_nil (d : List (K × V)) : fset d [] = d := rfl

theorem fset_cons (d : List (K × V)) (p : K × V) (L : List (K × V)) :
    fset d (p :: L) = fset (mset d p.1 p.2) L := rfl

theorem WFmap_fset (d : List (K × V)) (L : List (K × V)) (hwf : WFmap d) :
    WFmap (fset d L) := by
  induction L generalizing d with
  | nil => exact hwf
  | cons p t ih =>
    rw [fset_cons]
    exact ih _ (WFmap_mset _ _ _ hwf)

theorem mget_fset (d : List (K × V)) (L : List (K × V)) (y : K)
    (hnd : (L.map Prod.fst).Nodup) :
    mget (fset d L) y = optOr (mget L y) (mget d y) := by
  induction L generalizing d with
  | nil => simp [fset_nil, mget, optOr]
  | cons p t ih =>
    obtain ⟨k0, v0⟩ := p
    rw [List.map_cons, List.nodup_cons] at hnd
    rw [fset_cons]
    by_cases hy : y = k0
    · subst hy
      have hn : mget t y = none := by
        apply mget_eq_none_of_ne
        intro q hq he
        apply hnd.1
        rw [List.mem_map]
        exact ⟨q, hq, he⟩
      rw [ih _ hnd.2, hn]
      simp only [mget, if_true, eq_self_iff_true, optOr]
      rw [mget_mset_self]
    · rw [ih _ hnd.2]
      simp only [mget, if_neg (Ne.symm hy)]
      rw [mget_mset_ne _ _ _ _ hy]

theorem nodup_keys_of_WFmap (l : List (K × V)) (hwf : WFmap l) :
    (l.map Prod.fst).Nodup := by
  induction l with
  | nil => simp
  | cons p t ih =>
    rw [WFmap, List.pairwise_cons] at hwf
    rw [List.map_cons, List.nodup_cons]
    refine ⟨?_, ih hwf.2⟩
    intro hmem
    rw [List.mem_map] at hmem
    obtain ⟨q, hq, he⟩ := hmem
    have h := hwf.1 q hq
    rw [he, KeyCmp.ltb_irrefl] at h
    exact Bool.false_ne_true h

theorem mmodE_snd {E : Type} (l : List (K × V)) (k : K) (f : V → Option E × V) :
    (mmodE l k f).2 = mmod l k (fun v => (f v).2) := by
  induction l with
  | nil => rfl
  | cons p t ih =>
    obtain ⟨k0, v0⟩ := p
    by_cases h0 : k0 = k
    · simp [mmodE, mmod, h0]
    · simp [mmodE, mmod, h0, ih]

theorem mmodE_fst (l : List (K × V)) {E : Type} (k : K) (f : V → Option E × V)
    (e : V) (h : mget l k = some e) : (mmodE l k f).1 = (f e).1 := by
  induction l with
  | nil => simp [mget] at h
  | cons p t ih =>
    obtain ⟨k0, v0⟩ := p
    by_cases h0 : k0 = k
    · subst h0
      simp only [mget, if_true, eq_self_iff_true] at h
      rw [Option.some.injEq] at h
      simp [mmodE, h]
    · simp only [mget, if_neg h0] at h
      simp [mmodE, h0, ih h]

theorem mem_mmod_val (l : List (K × V)) (k : K) (f : V → V) (q : K × V)
    (hq : q ∈ mmod l k f) : q ∈ l ∨ ∃ r ∈ l, q = (r.1, f r.2) := by
  induction l with
  | nil => simp [mmod] at hq
  | cons p t ih =>
    obtain ⟨k0, v0⟩ := p
    by_cases h0 : k0 = k
    · simp only [mmod, if_pos h0] at hq
      rw [List.mem_cons] at hq
      rcases hq with h | h
      · exact Or.inr ⟨(k0, v0), List.mem_cons_self _ _, h⟩
      · exact Or.inl (List.mem_cons_of_mem _ h)
    · simp only [mmod, if_neg h0] at hq
      rw [List.mem_cons] at hq
      rcases hq with h | h
      · exact Or.inl (h ▸ List.mem_cons_self _ _)
      · rcases ih h with h' | ⟨r, hr, he⟩
        · exact Or.inl (List.mem_cons_of_mem _ h')
        · exact Or.inr ⟨r, List.mem_cons_of_mem _ hr, he⟩

theorem mget_of_mem (l : List (K × V)) (k : K) (v : V)
    (hmem : (k, v) ∈ l) (hnd : (l.map Prod.fst).Nodup) : mget l k = some v := by
  induction l with
  | nil => simp at hmem
  | cons p t ih =>
    obtain ⟨k0, v0⟩ := p
    rw [List.map_cons, List.nodup_cons] at hnd
    rw [List.mem_cons] at hmem
    rcases hmem with h | h
    · rw [Prod.mk.injEq] at h
      obtain ⟨h1, h2⟩ := h
      subst h1
      subst h2
      exact mget_cons_self _ _ _
    · have hne : k0 ≠ k := by
        intro he
        subst he
        exact hnd.1 (List.mem_map.mpr ⟨(k0, v), h, rfl⟩)
      simp only [mget, if_neg hne]
      exact ih h hnd.2

theorem mem_mmod (l : List (K × V)) (k : K) (f : V → V) (q : K × V)
    (hq : q ∈ mmod l k f) : ∃ r ∈ l, q.1 = r.1 := by
  induction l with
  | nil => simp [mmod] at hq
  | cons p t ih =>
    obtain ⟨k0, v0⟩ := p
    by_cases h0 : k0 = k
    · simp only [mmod, if_pos h0] at hq
      rw [List.mem_cons] at hq
      rcases hq with h | h
      · exact ⟨(k0, v0), List.mem_cons_self _ _, by rw [h]⟩
      · exact ⟨q, List.mem_cons_of_mem _ h, rfl⟩
    · simp only [mmod, if_neg h0] at hq
      rw [List.mem_cons] at hq
      rcases hq with h | h
      · exact ⟨(k0, v0), List.mem_cons_self _ _, by rw [h]⟩
      · obtain ⟨r, hr, he⟩ := ih h
        exact ⟨r, List.mem_cons_of_mem _ hr, he⟩

theorem WFmap_mmod (l : List (K × V)) (k : K) (f : V → V) (hwf : WFmap l) :
    WFmap (mmod l k f) := by
  induction l with
  | nil => simpa [mmod] using hwf
  | cons p t ih =>
    obtain ⟨k0, v0⟩ := p
    rw [WFmap, List.pairwise_cons] at hwf
    obtain ⟨hhead, htail⟩ := hwf
    by_cases h0 : k0 = k
    · subst h0
      rw [WFmap, mmod]
      simp only [if_true, eq_self_iff_true]
      rw [List.pairwise_cons]
      exact ⟨fun q hq => hhead q hq, htail⟩
    · rw [WFmap, mmod]
      simp only [if_neg h0]
      rw [List.pairwise_cons]
      refine ⟨?_, ih htail⟩
      intro q hq
      obtain ⟨r, hr, he⟩ := mem_mmod t k f q hq
      rw [he]
      exact hhead r hr

theorem mmodE_none {E : Type} (l : List (K × V)) (k : K) (f : V → Option E × V)
    (h : mget l k = none) : mmodE l k f = (none, l) := by
  induction l with
  | nil => rfl
  | cons p t ih =>
    obtain ⟨k0, v0⟩ := p
    by_cases h0 : k0 = k
    · simp [mget, h0] at h
    · simp only [mget, if_neg h0] at h
      simp [mmodE, h0, ih h]

theorem optOr_self {α : Type} (a : Option α) : optOr a a = a := by
  cases a <;> rfl

theorem optOr_absorb {α : Type} (a b : Option α) : optOr a (optOr a b) = optOr a b := by
  cases a <;> rfl

end MapModel

theorem Measure.overwrite_label (m other : Measure) :
    (m.overwrite other).label = other.label := rfl

theorem Measure.overwrite_codename (m other : Measure) :
    (m.overwrite other).codename = m.codename := rfl

theorem Measure.overwrite_get (m other : Measure) (y : Int) (h : other.WFd) :
    mget (m.overwrite other).data y = optOr (mget other.data y) (mget m.data y) :=
  mget_fset m.data other.data y (nodup_keys_of_WFmap other.data h)

theorem Measure.overwrite_WFd (m other : Measure) (h : m.WFd) :
    (m.overwrite other).WFd :=
  WFmap_fset m.data other.data h

theorem Measure.overwrite_self_eq (m : Measure) (h : m.WFd) : m.overwrite m = m := by
  have hd : fset m.data m.data = m.data := by
    apply mext _ _ (WFmap_fset _ _ h) h
    intro y
    rw [mget_fset _ _ _ (nodup_keys_of_WFmap m.data h), optOr_self]
  obtain ⟨c, l, d⟩ := m
  unfold Measure.overwrite
  simp only at hd
  simp [hd]

theorem Measure.overwrite_absorb_eq (m other : Measure) (hm : m.WFd) (ho : other.WFd) :
    (m.overwrite other).overwrite other = m.overwrite other := by
  have hnd := nodup_keys_of_WFmap other.data ho
  have hd : fset (fset m.data other.data) other.data = fset m.data other.data := by
    apply mext _ _ (WFmap_fset _ _ (WFmap_fset _ _ hm)) (WFmap_fset _ _ hm)
    intro y
    rw [mget_fset _ _ _ hnd, mget_fset _ _ _ hnd, optOr_absorb]
  obtain ⟨c, l, d⟩ := m
  unfold Measure.overwrite
  simp only at hd
  simp [hd]

theorem map_ctolower_fix (l : List Char)
    (h : ∀ c ∈ l, 97 ≤ c.toNat ∧ c.toNat ≤ 122) : l.map ctolower = l := by
  induction l with
  | nil => rfl
  | cons c t ih =>
    have hc := h c (List.mem_cons_self _ _)
    rw [List.map_cons, ctolower_of_not_upper (by omega),
      ih (fun d hd => h d (List.mem_cons_of_mem _ hd))]

/-- A string that passes the lowercase regex is fixed by `::tolower`. -/
theorem strToLower_fix_of_langExprMatch (s : String) (h : langExprMatch s = true) :
    strToLower s = s := by
  unfold langExprMatch at h
  rw [Bool.and_eq_true, List.all_eq_true] at h
  have hmap : s.data.map ctolower = s.data := by
    apply map_ctolower_fix
    intro c hc
    have := h.2 c hc
    rw [Bool.and_eq_true, decide_eq_true_eq, decide_eq_true_eq] at this
    exact this
  obtain ⟨d⟩ := s
  unfold strToLower
  exact congrArg String.mk hmap

theorem Area.setMeasure_code (a : Area) (c : String) (m : Measure) :
    (a.setMeasure c m).localAuthorityCode = a.localAuthorityCode := by
  unfold Area.setMeasure
  cases mget a.measures (strToLower c) <;> rfl

theorem Area.setMeasure_names (a : Area) (c : String) (m : Measure) :
    (a.setMeasure c m).names = a.names := by
  unfold Area.setMeasure
  cases mget a.measures (strToLower c) <;> rfl

theorem Area.setMeasure_get_present (a : Area) (c : String) (m ex : Measure)
    (h : mget a.measures (strToLower c) = some ex) :
    mget (a.setMeasure c m).measures (strToLower c) = some (ex.overwrite m) := by
  unfold Area.setMeasure
  rw [h]
  exact mget_mmod_self _ _ _ _ h

theorem Area.setMeasure_get_absent (a : Area) (c : String) (m : Measure)
    (h : mget a.measures (strToLower c) = none) :
    mget (a.setMeasure c m).measures (strToLower c) = some m := by
  unfold Area.setMeasure
  rw [h]
  exact mget_mset_self _ _ _

theorem Area.setMeasure_get_ne (a : Area) (c : String) (m : Measure) (k : String)
    (hk : k ≠ strToLower c) :
    mget (a.setMeasure c m).measures k = mget a.measures k := by
  unfold Area.setMeasure
  cases h : mget a.measures (strToLower c)
  · exact mget_mset_ne _ _ _ _ hk
  · exact mget_mmod_ne _ _ _ _ hk

theorem Area.setMeasure_WFmap (a : Area) (c : String) (m : Measure)
    (h : WFmap a.measures) : WFmap (a.setMeasure c m).measures := by
  unfold Area.setMeasure
  cases mget a.measures (strToLower c)
  · exact WFmap_mset _ _ _ h
  · exact WFmap_mmod _ _ _ h

theorem Area.setMeasure_WF (a : Area) (c : String) (m : Measure)
    (ha : a.WF) (hm : m.WFd) : (a.setMeasure c m).WF := by
  obtain ⟨hn, hnk, hms, hmv⟩ := ha
  refine ⟨?_, ?_, Area.setMeasure_WFmap a c m hms, ?_⟩
  · rw [Area.setMeasure_names]
    exact hn
  · rw [Area.setMeasure_names]
    exact hnk
  · intro p hp
    unfold Area.setMeasure at hp
    cases hg : mget a.measures (strToLower c) with
    | none =>
      rw [hg] at hp
      simp only at hp
      rcases mem_mset _ _ _ _ hp with he | hmem
      · rw [he]
        exact ⟨strToLower_idem c, hm⟩
      · exact hmv p hmem
    | some ex =>
      rw [hg] at hp
      simp only at hp
      rcases mem_mmod_val _ _ _ _ hp with hmem | ⟨r, hr, he⟩
      · exact hmv p hmem
      · rw [he]
        exact ⟨(hmv r hr).1, Measure.overwrite_WFd _ _ (hmv r hr).2⟩

theorem Area.ext_fields (x y : Area)
    (h1 : x.localAuthorityCode = y.localAuthorityCode)
    (h2 : x.names = y.names) (h3 : x.measures = y.measures) : x = y := by
  cases x
  cases y
  simp only at h1 h2 h3
  simp [h1, h2, h3]

/-- When every language key of the list passes the (lowercased) regex, the
names loop of `Area::overwrite` throws nothing and is a plain upsert fold. -/
theorem Area.setNamesLoop_ok (L : List (String × String)) (a : Area)
    (hL : ∀ p ∈ L, langExprMatch (strToLower p.1) = true) :
    Area.setNamesLoop a L =
      (none, { a with names := L.foldl (fun N p => mset N (strToLower p.1) p.2) a.names }) := by
  induction L generalizing a with
  | nil => rfl
  | cons p t ih =>
    obtain ⟨l, n⟩ := p
    have hp := hL (l, n) (List.mem_cons_self _ _)
    simp only [Area.setNamesLoop, Area.setName, if_pos hp]
    rw [ih _ (fun q hq => hL q (List.mem_cons_of_mem _ hq))]
    simp [List.foldl_cons]

/-- Rewriting the names fold when the keys are already lowercase. -/
theorem foldl_mset_lower (L : List (String × String)) (N : List (String × String))
    (hL : ∀ p ∈ L, strToLower p.1 = p.1) :
    L.foldl (fun N p => mset N (strToLower p.1) p.2) N = fset N L := by
  induction L generalizing N with
  | nil => rfl
  | cons p t ih =>
    obtain ⟨l, n⟩ := p
    rw [List.foldl_cons, fset_cons]
    rw [hL (l, n) (List.mem_cons_self _ _)]
    exact ih _ (fun q hq => hL q (List.mem_cons_of_mem _ hq))

theorem Area.setMeasuresLoop_nil (a : Area) : Area.setMeasuresLoop a [] = a := rfl

theorem Area.setMeasuresLoop_cons (a : Area) (p : String × Measure)
    (L : List (String × Measure)) :
    Area.setMeasuresLoop a (p :: L) = Area.setMeasuresLoop (a.setMeasure p.1 p.2) L := rfl

theorem Area.setMeasuresLoop_code (a : Area) (L : List (String × Measure)) :
    (Area.setMeasuresLoop a L).localAuthorityCode = a.localAuthorityCode := by
  induction L generalizing a with
  | nil => rfl
  | cons p t ih =>
    rw [Area.setMeasuresLoop_cons, ih, Area.setMeasure_code]

theorem Area.setMeasuresLoop_names (a : Area) (L : List (String × Measure)) :
    (Area.setMeasuresLoop a L).names = a.names := by
  induction L generalizing a with
  | nil => rfl
  | cons p t ih =>
    rw [Area.setMeasuresLoop_cons, ih, Area.setMeasure_names]

theorem Area.setMeasuresLoop_WFmap (a : Area) (L : List (String × Measure))
    (h : WFmap a.measures) : WFmap (Area.setMeasuresLoop a L).measures := by
  induction L generalizing a with
  | nil => exact h
  | cons p t ih =>
    rw [Area.setMeasuresLoop_cons]
    exact ih _ (Area.setMeasure_WFmap _ _ _ h)

theorem mergeOpt_none_right (old : Option Measure) : mergeOpt old none = old := rfl

/-- Lookup after the measures loop of `Area::overwrite`: each key of the
incoming map is merged right-biased onto the existing entry, other keys are
untouched (incoming keys assumed distinct and lowercase, which holds for
any `std::map` of `setMeasure`-inserted keys). -/
theorem Area.setMeasuresLoop_cons_mk (a : Area) (k0 : String) (m0 : Measure)
    (L : List (String × Measure)) :
    Area.setMeasuresLoop a ((k0, m0) :: L) = Area.setMeasuresLoop (a.setMeasure k0 m0) L := rfl

theorem Area.setMeasuresLoop_get (L : List (String × Measure)) (a : Area) (c : String)
    (hnd : (L.map Prod.fst).Nodup) (hkeys : ∀ p ∈ L, strToLower p.1 = p.1) :
    mget (Area.setMeasuresLoop a L).measures c = mergeOpt (mget a.measures c) (mget L c) := by
  induction L generalizing a with
  | nil => rfl
  | cons p t ih =>
    obtain ⟨k0, m0⟩ := p
    rw [List.map_cons, List.nodup_cons] at hnd
    have hk0 : strToLower k0 = k0 := hkeys (k0, m0) (List.mem_cons_self _ _)
    rw [Area.setMeasuresLoop_cons_mk,
      ih _ hnd.2 (fun q hq => hkeys q (List.mem_cons_of_mem _ hq))]
    by_cases hc : c = k0
    · rw [hc]
      have hn : mget t k0 = none := by
        apply mget_eq_none_of_ne
        intro q hq he
        exact hnd.1 (List.mem_map.mpr ⟨q, hq, he⟩)
      rw [hn, mergeOpt_none_right, mget_cons_self]
      cases hg : mget a.measures k0 with
      | some ex =>
        have h2 := Area.setMeasure_get_present a k0 m0 ex (by rw [hk0]; exact hg)
        rw [hk0] at h2
        rw [h2]
        rfl
      | none =>
        have h2 := Area.setMeasure_get_absent a k0 m0 (by rw [hk0]; exact hg)
        rw [hk0] at h2
        rw [h2]
        rfl
    · have h2 := Area.setMeasure_get_ne a k0 m0 c (by rw [hk0]; exact hc)
      rw [h2]
      simp only [mget, if_neg (Ne.symm hc)]

/-- A `setMeasure` with the measure already present under its own key and
merged with itself is a no-op; hence the measures loop applied to an area
that already contains every entry is the identity. -/
theorem Area.setMeasuresLoop_id (L : List (String × Measure)) (a : Area)
    (h : ∀ p ∈ L, strToLower p.1 = p.1 ∧ WFmap p.2.data ∧ mget a.measures p.1 = some p.2) :
    Area.setMeasuresLoop a L = a := by
  induction L generalizing a with
  | nil => rfl
  | cons p t ih =>
    obtain ⟨k0, m0⟩ := p
    obtain ⟨hk0, hwf0, hg0⟩ := h (k0, m0) (List.mem_cons_self _ _)
    have hk0' : strToLower k0 = k0 := hk0
    have hwf0' : WFmap m0.data := hwf0
    have hg0' : mget a.measures k0 = some m0 := hg0
    have hstep : a.setMeasure k0 m0 = a := by
      unfold Area.setMeasure
      rw [hk0', hg0']
      show { a with measures := mmod a.measures k0 (fun ex => ex.overwrite m0) } = a
      rw [mmod_id a.measures k0 (fun ex => ex.overwrite m0) m0 hg0'
        (Measure.overwrite_self_eq m0 hwf0')]
    rw [Area.setMeasuresLoop_cons_mk, hstep]
    exact ih _ (fun q hq => h q (List.mem_cons_of_mem _ hq))

/-- `Area::overwrite` on an argument whose name keys are all valid reduces
to a plain pair of upsert folds (no exception). -/
theorem Area.overwrite_components (e a : Area)
    (hvalid : ∀ p ∈ a.names, langExprMatch (strToLower p.1) = true)
    (hlow : ∀ p ∈ a.names, strToLower p.1 = p.1) :
    e.overwrite a =
      (none, Area.setMeasuresLoop { e with names := fset e.names a.names } a.measures) := by
  unfold Area.overwrite
  rw [Area.setNamesLoop_ok a.names e hvalid, foldl_mset_lower a.names e.names hlow]

theorem mergeOpt_absorb (X Y : Option Measure)
    (hX : ∀ ex, X = some ex → WFmap ex.data)
    (hY : ∀ m, Y = some m → WFmap m.data) :
    mergeOpt (mergeOpt X Y) Y = mergeOpt X Y := by
  cases Y with
  | none => rfl
  | some m =>
    cases X with
    | none =>
      show some (Measure.overwrite m m) = some m
      rw [Measure.overwrite_self_eq m (hY m rfl)]
    | some ex =>
      show some ((ex.overwrite m).overwrite m) = some (ex.overwrite m)
      rw [Measure.overwrite_absorb_eq ex m (hX ex rfl) (hY m rfl)]

/-- Merging the same area twice into an existing area is the same as
merging it once, and neither merge throws; the incoming area satisfies the
class invariant, the existing one only needs its `std::map` invariants. -/
theorem Area.overwrite_absorb (e a : Area)
    (he1 : WFmap e.names) (he2 : WFmap e.measures)
    (he3 : ∀ p ∈ e.measures, WFmap p.2.data) (ha : a.WF) :
    (e.overwrite a).1 = none ∧
    ((e.overwrite a).2).overwrite a = (none, (e.overwrite a).2) := by
  obtain ⟨han, hank, hams, hamv⟩ := ha
  have hvalid : ∀ p ∈ a.names, langExprMatch (strToLower p.1) = true := by
    intro p hp
    rw [strToLower_fix_of_langExprMatch p.1 (hank p hp)]
    exact hank p hp
  have hlow : ∀ p ∈ a.names, strToLower p.1 = p.1 :=
    fun p hp => strToLower_fix_of_langExprMatch p.1 (hank p hp)
  have hmlow : ∀ p ∈ a.measures, strToLower p.1 = p.1 := fun p hp => (hamv p hp).1
  have hmnd := nodup_keys_of_WFmap a.measures hams
  have hov := Area.overwrite_components e a hvalid hlow
  have hA1names :
      (Area.setMeasuresLoop { e with names := fset e.names a.names } a.measures).names
        = fset e.names a.names := Area.setMeasuresLoop_names _ _
  have hNwf : WFmap (fset e.names a.names) := WFmap_fset _ _ he1
  have hand := nodup_keys_of_WFmap a.names han
  have hN2 : fset (fset e.names a.names) a.names = fset e.names a.names := by
    apply mext _ _ (WFmap_fset _ _ hNwf) hNwf
    intro y
    rw [mget_fset _ _ _ hand, mget_fset _ _ _ hand, optOr_absorb]
  have hMwf :
      WFmap (Area.setMeasuresLoop { e with names := fset e.names a.names } a.measures).measures :=
    Area.setMeasuresLoop_WFmap _ _ he2
  have hA1get : ∀ c,
      mget (Area.setMeasuresLoop { e with names := fset e.names a.names } a.measures).measures c
        = mergeOpt (mget e.measures c) (mget a.measures c) :=
    fun c => Area.setMeasuresLoop_get a.measures _ c hmnd hmlow
  have hMfix :
      Area.setMeasuresLoop
          (Area.setMeasuresLoop { e with names := fset e.names a.names } a.measures) a.measures
        = Area.setMeasuresLoop { e with names := fset e.names a.names } a.measures := by
    apply Area.ext_fields
    · exact Area.setMeasuresLoop_code _ _
    · exact Area.setMeasuresLoop_names _ _
    · apply mext _ _ (Area.setMeasuresLoop_WFmap _ _ hMwf) hMwf
      intro c
      rw [Area.setMeasuresLoop_get a.measures _ c hmnd hmlow, hA1get c]
      apply mergeOpt_absorb
      · intro ex hex
        exact he3 _ (mget_some_mem _ _ _ hex)
      · intro m hm
        exact (hamv _ (mget_some_mem _ _ _ hm)).2
  refine ⟨by rw [hov], ?_⟩
  rw [hov]
  show (Area.setMeasuresLoop { e with names := fset e.names a.names } a.measures).overwrite a
    = (none, Area.setMeasuresLoop { e with names := fset e.names a.names } a.measures)
  rw [Area.overwrite_components _ a hvalid hlow]
  have hupd :
      ({ Area.setMeasuresLoop { e with names := fset e.names a.names } a.measures with
          names := fset (Area.setMeasuresLoop { e with names := fset e.names a.names }
            a.measures).names a.names } : Area)
        = Area.setMeasuresLoop { e with names := fset e.names a.names } a.measures := by
    refine Area.ext_fields _ _ ?_ ?_ ?_
    · rfl
    · show fset (Area.setMeasuresLoop { e with names := fset e.names a.names } a.measures).names
          a.names
        = (Area.setMeasuresLoop { e with names := fset e.names a.names } a.measures).names
      rw [hA1names, hN2]
    · rfl
  rw [hupd]
  exact congrArg (Prod.mk (none : Option String)) hMfix

/-- Merging an area into itself is the identity (and throws nothing). -/
theorem Area.overwrite_self (a : Area) (ha : a.WF) : a.overwrite a = (none, a) := by
  obtain ⟨han, hank, hams, hamv⟩ := ha
  have hvalid : ∀ p ∈ a.names, langExprMatch (strToLower p.1) = true := by
    intro p hp
    rw [strToLower_fix_of_langExprMatch p.1 (hank p hp)]
    exact hank p hp
  have hlow : ∀ p ∈ a.names, strToLower p.1 = p.1 :=
    fun p hp => strToLower_fix_of_langExprMatch p.1 (hank p hp)
  rw [Area.overwrite_components a a hvalid hlow]
  have hN : fset a.names a.names = a.names := by
    apply mext _ _ (WFmap_fset _ _ han) han
    intro y
    rw [mget_fset _ _ _ (nodup_keys_of_WFmap _ han), optOr_self]
  rw [hN]
  have hid : Area.setMeasuresLoop { a with names := a.names } a.measures
      = { a with names := a.names } := by
    apply Area.setMeasuresLoop_id
    intro p hp
    refine ⟨(hamv p hp).1, (hamv p hp).2, ?_⟩
    show mget a.measures p.1 = some p.2
    obtain ⟨k0, m0⟩ := p
    exact mget_of_mem _ _ _ hp (nodup_keys_of_WFmap _ hams)
  rw [hid]

/-- Claim C1: merging a `Measure` into an existing `Measure` of the same
codename (`Area::setMeasure` delegating to the `Measure` merge) replaces
the existing label with the incoming label and upserts every (year, value)
pair of the incoming series into the existing one: years only in the
existing series are preserved, a year in both gets the incoming value
(right-biased union), and the resulting year set is the union of both. -/
theorem claim_C1_measure_merge (ar : Area) (c : String) (m e : Measure)
    (hpresent : mget ar.measures (strToLower c) = some e) (hm : Measure.WFd m) :
    mget (ar.setMeasure c m).measures (strToLower c) = some (e.overwrite m) ∧
    (e.overwrite m).label = m.label ∧
    (∀ y v, mget m.data y = some v → mget (e.overwrite m).data y = some v) ∧
    (∀ y, mget m.data y = none → mget (e.overwrite m).data y = mget e.data y) ∧
    (∀ y, mget (e.overwrite m).data y ≠ none ↔
      (mget e.data y ≠ none ∨ mget m.data y ≠ none)) := by
  have hget : ∀ y, mget (e.overwrite m).data y = optOr (mget m.data y) (mget e.data y) :=
    fun y => Measure.overwrite_get e m y hm
  refine ⟨Area.setMeasure_get_present ar c m e hpresent, rfl, ?_, ?_, ?_⟩
  · intro y v hv
    rw [hget y, hv]
    rfl
  · intro y hv
    rw [hget y, hv]
    rfl
  · intro y
    rw [hget y]
    cases hmy : mget m.data y with
    | some v => simp [optOr]
    | none => simp [optOr]

theorem claim_C1_measure_merge_witness :
    (mget (Area.mk "W06000023" []
        [("pop", Measure.mk "pop" "Old" [((1998 : Int), (7 : Rat)), (1999, 100)])]).measures
      (strToLower "Pop")
      = some (Measure.mk "pop" "Old" [((1998 : Int), (7 : Rat)), (1999, 100)])) ∧
    Measure.WFd (Measure.mk "pop" "New" [((1999 : Int), (150 : Rat)), (2010, 200)]) ∧
    mget ((Area.mk "W06000023" []
        [("pop", Measure.mk "pop" "Old" [((1998 : Int), (7 : Rat)), (1999, 100)])]).setMeasure
        "Pop" (Measure.mk "pop" "New" [((1999 : Int), (150 : Rat)), (2010, 200)])).measures
      (strToLower "Pop")
      = some ((Measure.mk "pop" "Old" [((1998 : Int), (7 : Rat)), (1999, 100)]).overwrite
          (Measure.mk "pop" "New" [((1999 : Int), (150 : Rat)), (2010, 200)])) :=
  ⟨by decide, by decide,
    (claim_C1_measure_merge
      (Area.mk "W06000023" []
        [("pop", Measure.mk "pop" "Old" [((1998 : Int), (7 : Rat)), (1999, 100)])])
      "Pop"
      (Measure.mk "pop" "New" [((1999 : Int), (150 : Rat)), (2010, 200)])
      (Measure.mk "pop" "Old" [((1998 : Int), (7 : Rat)), (1999, 100)])
      (by decide) (by decide)).1⟩

/-- Claim C2: the collection-level upsert `Areas::setArea` is idempotent
under the `std::map` class invariants that every reachable state and
argument satisfy: performing `setArea(k, a)` twice in succession throws
nothing and yields exactly the state of performing it once. -/
theorem claim_C2_setArea_idempotent (st : List (String × Area)) (k : String) (a : Area)
    (hst : Areas.WF st) (ha : a.WF) :
    (Areas.setArea st k a).1 = none ∧
    Areas.setArea (Areas.setArea st k a).2 k a = (none, (Areas.setArea st k a).2) := by
  cases hg : mget st k with
  | none =>
    have h1 : Areas.setArea st k a = (none, mset st k a) := by
      unfold Areas.setArea
      rw [hg]
    refine ⟨by rw [h1], ?_⟩
    rw [h1]
    show Areas.setArea (mset st k a) k a = (none, mset st k a)
    have hg2 : mget (mset st k a) k = some a := mget_mset_self st k a
    unfold Areas.setArea
    rw [hg2]
    have hself := Area.overwrite_self a ha
    have hfst : (mmodE (mset st k a) k (fun e => e.overwrite a)).1 = (a.overwrite a).1 :=
      mmodE_fst (mset st k a) k (fun e => e.overwrite a) a hg2
    rw [hself] at hfst
    have hsnd := mmodE_snd (mset st k a) k (fun e => e.overwrite a)
    have hfix : mmod (mset st k a) k (fun e => (e.overwrite a).2) = mset st k a := by
      apply mmod_id _ _ _ a hg2
      rw [hself]
    rw [Prod.ext_iff]
    constructor
    · exact hfst
    · rw [hsnd, hfix]
  | some e =>
    have hewf : Area.WF e := hst.2 (k, e) (mget_some_mem st k e hg)
    have habs := Area.overwrite_absorb e a hewf.1 hewf.2.2.1
      (fun p hp => (hewf.2.2.2 p hp).2) ha
    have h1 : Areas.setArea st k a = mmodE st k (fun x => x.overwrite a) := by
      unfold Areas.setArea
      rw [hg]
    have hfst1 : (mmodE st k (fun x => x.overwrite a)).1 = (e.overwrite a).1 :=
      mmodE_fst st k (fun x => x.overwrite a) e hg
    have hsnd1 := mmodE_snd st k (fun x => x.overwrite a)
    have hg2 : mget (mmod st k (fun x => (x.overwrite a).2)) k = some ((e.overwrite a).2) :=
      mget_mmod_self st k _ e hg
    constructor
    · rw [h1, hfst1, habs.1]
    · rw [h1, hsnd1]
      unfold Areas.setArea
      rw [hg2]
      rw [Prod.ext_iff]
      constructor
      · have hf2 : (mmodE (mmod st k (fun x => (x.overwrite a).2)) k
              (fun x => x.overwrite a)).1 = (((e.overwrite a).2).overwrite a).1 :=
          mmodE_fst (mmod st k (fun x => (x.overwrite a).2)) k
            (fun x => x.overwrite a) ((e.overwrite a).2) hg2
        rw [hf2, habs.2]
      · rw [mmodE_snd]
        apply mmod_id _ _ (fun x => (x.overwrite a).2) ((e.overwrite a).2) hg2
        rw [habs.2]

theorem claim_C2_setArea_idempotent_witness :
    Areas.WF [("W06000010", Area.mk "W06000010" [("eng", "Cardiff")] [])] ∧
    Area.WF (Area.mk "W06000010" [("cym", "Caerdydd"), ("eng", "Cardiff")]
      [("pop", Measure.mk "pop" "Population" [((1999 : Int), (100 : Rat))])]) ∧
    ((Areas.setArea [("W06000010", Area.mk "W06000010" [("eng", "Cardiff")] [])]
        "W06000010"
        (Area.mk "W06000010" [("cym", "Caerdydd"), ("eng", "Cardiff")]
          [("pop", Measure.mk "pop" "Population" [((1999 : Int), (100 : Rat))])])).1 = none ∧
      Areas.setArea
        (Areas.setArea [("W06000010", Area.mk "W06000010" [("eng", "Cardiff")] [])]
          "W06000010"
          (Area.mk "W06000010" [("cym", "Caerdydd"), ("eng", "Cardiff")]
            [("pop", Measure.mk "pop" "Population" [((1999 : Int), (100 : Rat))])])).2
        "W06000010"
        (Area.mk "W06000010" [("cym", "Caerdydd"), ("eng", "Cardiff")]
          [("pop", Measure.mk "pop" "Population" [((1999 : Int), (100 : Rat))])])
      = (none,
          (Areas.setArea [("W06000010", Area.mk "W06000010" [("eng", "Cardiff")] [])]
            "W06000010"
            (Area.mk "W06000010" [("cym", "Caerdydd"), ("eng", "Cardiff")]
              [("pop", Measure.mk "pop" "Population" [((1999 : Int), (100 : Rat))])])).2)) :=
  ⟨by decide, by decide,
    claim_C2_setArea_idempotent
      [("W06000010", Area.mk "W06000010" [("eng", "Cardiff")] [])]
      "W06000010"
      (Area.mk "W06000010" [("cym", "Caerdydd"), ("eng", "Cardiff")]
        [("pop", Measure.mk "pop" "Population" [((1999 : Int), (100 : Rat))])])
      (by decide) (by decide)⟩

/-- Claim C6, counterexample to the stated iff: after `setValue(500, 1)` the
series has an entry for year 500, yet `getValue(500)` throws, because the
four-digit-year regex in `Measure::getValue` rejects 500. -/
theorem claim_C6_getValue_counterexample :
    mget (((Measure.make "pop" "Population").setValue 500 1).data) 500 = some 1 ∧
    ((Measure.make "pop" "Population").setValue 500 1).getValue 500
      = Except.error "No value found for year 500" := by
  constructor
  · decide
  · rfl

/-- Claim C6 (amended): `getValue(y)` fails exactly when the series has no
entry for `y` or `y` is not a four-digit year (outside 1000..9999, the
strings matched by the regex `[1-9][0-9][0-9][0-9]`); when an entry exists
and `y` is in range, it returns the stored value. -/
theorem claim_C6_getValue_amended (m : Measure) (y : Int) :
    ((∃ msg, m.getValue y = Except.error msg) ↔
      (mget m.data y = none ∨ y < 1000 ∨ 9999 < y)) ∧
    (∀ v, mget m.data y = some v → 1000 ≤ y → y ≤ 9999 → m.getValue y = Except.ok v) := by
  cases hg : mget m.data y with
  | none =>
    have hval : m.getValue y = Except.error ("No value found for year " ++ toString y) := by
      unfold Measure.getValue
      rw [hg]
    refine ⟨⟨fun _ => Or.inl rfl, fun _ => ⟨"No value found for year " ++ toString y, hval⟩⟩, ?_⟩
    intro v hv
    exact absurd hv (by simp)
  | some v0 =>
    have hval : m.getValue y = if Measure.yearExprMatch y = true then Except.ok v0
        else Except.error ("No value found for year " ++ toString y) := by
      unfold Measure.getValue
      rw [hg]
    constructor
    · constructor
      · rintro ⟨msg, hmsg⟩
        rw [hval] at hmsg
        by_cases hy : 1000 ≤ y ∧ y ≤ 9999
        · rw [if_pos] at hmsg
          · exact absurd hmsg (by simp)
          · unfold Measure.yearExprMatch
            exact decide_eq_true hy
        · right
          omega
      · rintro (h | h)
        · exact absurd h (by simp)
        · refine ⟨"No value found for year " ++ toString y, ?_⟩
          rw [hval, if_neg]
          unfold Measure.yearExprMatch
          simp only [decide_eq_true_eq]
          omega
    · intro v hv h1 h2
      have hv' : v0 = v := by
        rw [Option.some.injEq] at hv
        exact hv
      rw [hval, hv', if_pos]
      unfold Measure.yearExprMatch
      exact decide_eq_true ⟨h1, h2⟩

theorem claim_C6_getValue_amended_witness :
    mget (Measure.mk "pop" "Population" [((1999 : Int), (100 : Rat))]).data 1999 = some 100 ∧
    (1000 : Int) ≤ 1999 ∧ (1999 : Int) ≤ 9999 ∧
    (Measure.mk "pop" "Population" [((1999 : Int), (100 : Rat))]).getValue 1999
      = Except.ok 100 :=
  ⟨by decide, by decide, by decide,
    (claim_C6_getValue_amended (Measure.mk "pop" "Population" [((1999 : Int), (100 : Rat))])
      1999).2 100 (by decide) (by decide) (by decide)⟩

theorem all_lower_iff_alpha (cs : List Char) :
    cs.all (fun c => decide (97 ≤ (ctolower c).toNat) && decide ((ctolower c).toNat ≤ 122))
      = cs.all (fun c => (decide (65 ≤ c.toNat) && decide (c.toNat ≤ 90)) ||
          (decide (97 ≤ c.toNat) && decide (c.toNat ≤ 122))) := by
  induction cs with
  | nil => rfl
  | cons c t ih =>
    simp only [List.all_cons, ih]
    congr 1
    by_cases h : 65 ≤ c.toNat ∧ c.toNat ≤ 90
    · rw [ctolower_toNat_of_upper h.1 h.2]
      rw [decide_eq_true (show 97 ≤ c.toNat + 32 by omega)]
      rw [decide_eq_true (show c.toNat + 32 ≤ 122 by omega)]
      rw [decide_eq_true h.1, decide_eq_true h.2]
      rfl
    · rw [ctolower_of_not_upper h]
      have hfalse : (decide (65 ≤ c.toNat) && decide (c.toNat ≤ 90)) = false := by
        cases h1 : decide (65 ≤ c.toNat) with
        | false => rfl
        | true =>
          cases h2 : decide (c.toNat ≤ 90) with
          | false => rfl
          | true =>
            rw [decide_eq_true_eq] at h1 h2
            exact absurd ⟨h1, h2⟩ h
      rw [hfalse, Bool.false_or]

theorem langExprMatch_strToLower (l : String) :
    langExprMatch (strToLower l) = isAlpha3 l := by
  unfold langExprMatch isAlpha3 strToLower
  show (decide ((l.data.map ctolower).length = 3) && (l.data.map ctolower).all
      (fun c => decide (97 ≤ c.toNat) && decide (c.toNat ≤ 122)))
    = (decide (l.data.length = 3) && l.data.all (fun c =>
        (decide (65 ≤ c.toNat) && decide (c.toNat ≤ 90)) ||
        (decide (97 ≤ c.toNat) && decide (c.toNat ≤ 122))))
  rw [List.length_map, List.all_map]
  exact congrArg (fun b => decide (l.data.length = 3) && b) (all_lower_iff_alpha l.data)

/-- Claim C7, counterexample to the stated round trip for codes in any
letter case: `setName("ENG", "Powys")` succeeds (the code is folded to
"eng" before storage), but `getName("ENG")` does not fold its argument and
throws `std::out_of_range`. -/
theorem claim_C7_setName_counterexample :
    ((Area.make "W06000023").setName "ENG" "Powys").1 = none ∧
    (((Area.make "W06000023").setName "ENG" "Powys").2).getName "ENG"
      = Except.error "No name in language ENG" := by
  constructor
  · decide
  · rfl

/-- Claim C7 (amended): for a language code of exactly three alphabetic
characters in any letter case, `setName(l, n)` succeeds and
`getName(tolower(l))` returns `n` — so the round trip at `l` itself holds
exactly when `l` is already lowercase; `setName` with a code that is not
three alphabetic characters throws `InvalidFormat` and leaves the area
unchanged. -/
theorem claim_C7_setName_getName (a : Area) (l n : String) :
    (isAlpha3 l = true →
      (a.setName l n).1 = none ∧
      ((a.setName l n).2).getName (strToLower l) = Except.ok n) ∧
    (isAlpha3 l = false →
      a.setName l n
        = (some "Area::setName: Language code must be three alphabetical letters only", a)) := by
  constructor
  · intro h
    have hm : langExprMatch (strToLower l) = true := by
      rw [langExprMatch_strToLower]
      exact h
    unfold Area.setName
    rw [if_pos hm]
    refine ⟨rfl, ?_⟩
    unfold Area.getName
    rw [mget_mset_self]
  · intro h
    have hm : langExprMatch (strToLower l) = false := by
      rw [langExprMatch_strToLower]
      exact h
    unfold Area.setName
    rw [if_neg]
    rw [hm]
    exact Bool.false_ne_true

theorem claim_C7_setName_getName_witness :
    isAlpha3 "Eng" = true ∧
    (((Area.make "W06000023").setName "Eng" "Powys").1 = none ∧
      (((Area.make "W06000023").setName "Eng" "Powys").2).getName (strToLower "Eng")
        = Except.ok "Powys") ∧
    isAlpha3 "en1" = false ∧
    (Area.make "W06000023").setName "en1" "Powys"
      = (some "Area::setName: Language code must be three alphabetical letters only",
          Area.make "W06000023") :=
  ⟨by decide,
    (claim_C7_setName_getName (Area.make "W06000023") "Eng" "Powys").1 (by decide),
    by decide,
    (claim_C7_setName_getName (Area.make "W06000023") "en1" "Powys").2 (by decide)⟩

theorem areaFilterLoopJSON_none (code nameEng : String) (area : Area) (ts : List String)
    (st : List (String × Area))
    (h : ∀ t ∈ ts, (Areas.contains code t || Areas.contains nameEng t) = false) :
    areaFilterLoopJSON code nameEng area ts st = (none, st) := by
  induction ts with
  | nil => rfl
  | cons t rest ih =>
    unfold areaFilterLoopJSON
    rw [if_neg]
    · exact ih (fun q hq => h q (List.mem_cons_of_mem _ hq))
    · rw [h t (List.mem_cons_self _ _)]
      exact Bool.false_ne_true

theorem setArea_self_noop (st : List (String × Area)) (code : String) (area : Area)
    (hg : mget st code = some area) (hself : area.overwrite area = (none, area)) :
    Areas.setArea st code area = (none, st) := by
  unfold Areas.setArea
  rw [hg]
  rw [Prod.ext_iff]
  constructor
  · have hf : (mmodE st code (fun e => e.overwrite area)).1 = (area.overwrite area).1 :=
      mmodE_fst st code _ area hg
    rw [hf, hself]
  · rw [mmodE_snd]
    apply mmod_id _ _ (fun e => (e.overwrite area).2) area hg
    rw [hself]

theorem areaFilterLoopJSON_present (code nameEng : String) (area : Area) (ts : List String)
    (st : List (String × Area))
    (hg : mget st code = some area) (hself : area.overwrite area = (none, area)) :
    areaFilterLoopJSON code nameEng area ts st = (none, st) := by
  induction ts with
  | nil => rfl
  | cons t rest ih =>
    unfold areaFilterLoopJSON
    by_cases hm : (Areas.contains code t || Areas.contains nameEng t) = true
    · rw [if_pos hm, setArea_self_noop st code area hg hself]
      exact ih
    · rw [if_neg hm]
      exact ih

theorem areaFilterLoopJSON_insert (code nameEng : String) (area : Area) (ts : List String)
    (st : List (String × Area))
    (hg : mget st code = none) (hself : area.overwrite area = (none, area))
    (hany : ts.any (fun t => Areas.contains code t || Areas.contains nameEng t) = true) :
    areaFilterLoopJSON code nameEng area ts st = (none, mset st code area) := by
  induction ts with
  | nil => simp at hany
  | cons t rest ih =>
    unfold areaFilterLoopJSON
    by_cases hm : (Areas.contains code t || Areas.contains nameEng t) = true
    · rw [if_pos hm]
      have hset : Areas.setArea st code area = (none, mset st code area) := by
        unfold Areas.setArea
        rw [hg]
      rw [hset]
      exact areaFilterLoopJSON_present code nameEng area rest _
        (mget_mset_self st code area) hself
    · rw [if_neg hm]
      apply ih
      have hx : (Areas.contains code t || Areas.contains nameEng t) = false := by
        cases hxx : (Areas.contains code t || Areas.contains nameEng t) with
        | false => rfl
        | true => exact absurd hxx hm
      rw [List.any_cons, hx, Bool.false_or] at hany
      exact hany

theorem processRecord_someFilter (ts : List String) (mf : Option (List String))
    (yf : Option (Nat × Nat)) (st : List (String × Area)) (r : JsonRecord)
    (hne : ts.isEmpty = false) :
    processRecord (some ts) mf yf st r =
      areaFilterLoopJSON r.authCode r.authNameEng
        (if measureFilterPass mf (strToLower r.measureCodeResolved) then
          (((Area.make r.authCode).setName "eng" r.authNameEng).2).setMeasure
            (strToLower r.measureCodeResolved)
            (if yearFilterPass yf r.year then
              (Measure.make (strToLower r.measureCodeResolved) r.measureName).setValue
                (Int.ofNat r.year) r.value
             else Measure.make (strToLower r.measureCodeResolved) r.measureName)
         else ((Area.make r.authCode).setName "eng" r.authNameEng).2)
        ts st := by
  show (if ts.isEmpty = true then
      Areas.setArea st r.authCode
        (if measureFilterPass mf (strToLower r.measureCodeResolved) then
          (((Area.make r.authCode).setName "eng" r.authNameEng).2).setMeasure
            (strToLower r.measureCodeResolved)
            (if yearFilterPass yf r.year then
              (Measure.make (strToLower r.measureCodeResolved) r.measureName).setValue
                (Int.ofNat r.year) r.value
             else Measure.make (strToLower r.measureCodeResolved) r.measureName)
         else ((Area.make r.authCode).setName "eng" r.authNameEng).2)
    else areaFilterLoopJSON r.authCode r.authNameEng
        (if measureFilterPass mf (strToLower r.measureCodeResolved) then
          (((Area.make r.authCode).setName "eng" r.authNameEng).2).setMeasure
            (strToLower r.measureCodeResolved)
            (if yearFilterPass yf r.year then
              (Measure.make (strToLower r.measureCodeResolved) r.measureName).setValue
                (Int.ofNat r.year) r.value
             else Measure.make (strToLower r.measureCodeResolved) r.measureName)
         else ((Area.make r.authCode).setName "eng" r.authNameEng).2)
        ts st)
    = areaFilterLoopJSON r.authCode r.authNameEng
        (if measureFilterPass mf (strToLower r.measureCodeResolved) then
          (((Area.make r.authCode).setName "eng" r.authNameEng).2).setMeasure
            (strToLower r.measureCodeResolved)
            (if yearFilterPass yf r.year then
              (Measure.make (strToLower r.measureCodeResolved) r.measureName).setValue
                (Int.ofNat r.year) r.value
             else Measure.make (strToLower r.measureCodeResolved) r.measureName)
         else ((Area.make r.authCode).setName "eng" r.authNameEng).2)
        ts st
  rw [if_neg]
  rw [hne]
  exact Bool.false_ne_true

theorem area_with_eng_name (code nameE : String) :
    ((Area.make code).setName "eng" nameE).2 = Area.mk code [("eng", nameE)] [] := by
  unfold Area.make Area.setName
  rw [if_pos (by decide)]
  show Area.mk code (mset [] (strToLower "eng") nameE) [] = Area.mk code [("eng", nameE)] []
  rw [show strToLower "eng" = "eng" from by decide]
  rfl

theorem area_with_eng_name_setMeasure (code nameE rawCode : String) (m : Measure) :
    (Area.mk code [("eng", nameE)] []).setMeasure (strToLower rawCode) m
      = Area.mk code [("eng", nameE)] [(strToLower rawCode, m)] := by
  unfold Area.setMeasure
  show Area.mk code [("eng", nameE)] (mset [] (strToLower (strToLower rawCode)) m)
    = Area.mk code [("eng", nameE)] [(strToLower rawCode, m)]
  rw [strToLower_idem, mset_nil]

theorem area_with_eng_name_WF (code nameE rawCode : String) (label : String)
    (d : List (Int × Rat)) (hd : WFmap d) :
    (Area.mk code [("eng", nameE)]
      [(strToLower rawCode, Measure.mk (strToLower rawCode) label d)]).WF := by
  refine ⟨?_, ?_, ?_, ?_⟩
  · unfold WFmap
    exact List.pairwise_singleton _ _
  · intro p hp
    rw [List.mem_singleton] at hp
    rw [hp]
    show langExprMatch "eng" = true
    decide
  · unfold WFmap
    exact List.pairwise_singleton _ _
  · intro p hp
    rw [List.mem_singleton] at hp
    rw [hp]
    exact ⟨strToLower_idem rawCode, hd⟩

/-- Claim C3: in the nested-list JSON reader the three filters act
independently and in the order year → measure → area, each guarding only
its own stage: (a) a record excluded by the area filter leaves the
collection exactly unchanged; (b) a record whose year is outside the
range, with measure and area filter passing and the area not yet present,
still upserts the area carrying a `Measure` with empty series; (c) a
record whose measure is excluded, with the area filter passing and the
area not yet present, still upserts the area with its English name and no
measures. -/
theorem claim_C3_json_filter_order :
    (∀ (mf : Option (List String)) (yf : Option (Nat × Nat)) (ts : List String)
        (st : List (String × Area)) (r : JsonRecord),
      ts ≠ [] →
      (∀ t ∈ ts, (Areas.contains r.authCode t || Areas.contains r.authNameEng t) = false) →
      processRecord (some ts) mf yf st r = (none, st)) ∧
    (∀ (mf : Option (List String)) (yf : Option (Nat × Nat)) (ts : List String)
        (st : List (String × Area)) (code nameE rawCode mname : String) (y : Nat) (v : Rat),
      yearFilterPass yf y = false →
      measureFilterPass mf (strToLower rawCode) = true →
      ts.any (fun t => Areas.contains code t || Areas.contains nameE t) = true →
      mget st code = none →
      processRecord (some ts) mf yf st ⟨code, nameE, rawCode, mname, y, v⟩
        = (none, mset st code
            (Area.mk code [("eng", nameE)]
              [(strToLower rawCode, Measure.mk (strToLower rawCode) mname [])]))) ∧
    (∀ (mf : Option (List String)) (yf : Option (Nat × Nat)) (ts : List String)
        (st : List (String × Area)) (code nameE rawCode mname : String) (y : Nat) (v : Rat),
      measureFilterPass mf (strToLower rawCode) = false →
      ts.any (fun t => Areas.contains code t || Areas.contains nameE t) = true →
      mget st code = none →
      processRecord (some ts) mf yf st ⟨code, nameE, rawCode, mname, y, v⟩
        = (none, mset st code (Area.mk code [("eng", nameE)] []))) := by
  refine ⟨?_, ?_, ?_⟩
  · intro mf yf ts st r hne h
    have hts : ts.isEmpty = false := by
      cases ts with
      | nil => exact absurd rfl hne
      | cons a b => rfl
    rw [processRecord_someFilter ts mf yf st r hts]
    exact areaFilterLoopJSON_none _ _ _ ts st h
  · intro mf yf ts st code nameE rawCode mname y v hyear hmeas hany hget
    have hts : ts.isEmpty = false := by
      cases ts with
      | nil => simp at hany
      | cons a b => rfl
    rw [processRecord_someFilter ts mf yf st _ hts]
    have hm1 : (if yearFilterPass yf y then
          (Measure.make (strToLower rawCode) mname).setValue (Int.ofNat y) v
        else Measure.make (strToLower rawCode) mname)
        = Measure.mk (strToLower rawCode) mname [] := by
      rw [if_neg]
      · unfold Measure.make
        rw [strToLower_idem]
      · rw [hyear]
        exact Bool.false_ne_true
    show areaFilterLoopJSON code nameE
        (if measureFilterPass mf (strToLower rawCode) then
          (((Area.make code).setName "eng" nameE).2).setMeasure (strToLower rawCode)
            (if yearFilterPass yf y then
              (Measure.make (strToLower rawCode) mname).setValue (Int.ofNat y) v
             else Measure.make (strToLower rawCode) mname)
         else ((Area.make code).setName "eng" nameE).2)
        ts st = _
    rw [hm1, if_pos hmeas, area_with_eng_name, area_with_eng_name_setMeasure]
    exact areaFilterLoopJSON_insert code nameE _ ts st hget
      (Area.overwrite_self _ (area_with_eng_name_WF code nameE rawCode mname []
        (by unfold WFmap; exact List.Pairwise.nil))) hany
  · intro mf yf ts st code nameE rawCode mname y v hmeas hany hget
    have hts : ts.isEmpty = false := by
      cases ts with
      | nil => simp at hany
      | cons a b => rfl
    rw [processRecord_someFilter ts mf yf st _ hts]
    show areaFilterLoopJSON code nameE
        (if measureFilterPass mf (strToLower rawCode) then
          (((Area.make code).setName "eng" nameE).2).setMeasure (strToLower rawCode)
            (if yearFilterPass yf y then
              (Measure.make (strToLower rawCode) mname).setValue (Int.ofNat y) v
             else Measure.make (strToLower rawCode) mname)
         else ((Area.make code).setName "eng" nameE).2)
        ts st = _
    rw [if_neg (by rw [hmeas]; exact Bool.false_ne_true), area_with_eng_name]
    refine areaFilterLoopJSON_insert code nameE _ ts st hget ?_ hany
    apply Area.overwrite_self
    refine ⟨?_, ?_, ?_, ?_⟩
    · unfold WFmap
      exact List.pairwise_singleton _ _
    · intro p hp
      rw [List.mem_singleton] at hp
      rw [hp]
      show langExprMatch "eng" = true
      decide
    · unfold WFmap
      exact List.Pairwise.nil
    · intro p hp
      simp at hp

theorem claim_C3_json_filter_order_witness :
    processRecord (some ["zzz"]) none none []
        ⟨"W1", "Cardiff", "Pop", "Population", 1999, 5⟩ = (none, []) ∧
    processRecord (some ["w1"]) (some ["pop"]) (some (2000, 2005)) []
        ⟨"W1", "Cardiff", "Pop", "Population", 1999, 5⟩
      = (none, mset [] "W1" (Area.mk "W1" [("eng", "Cardiff")]
          [(strToLower "Pop", Measure.mk (strToLower "Pop") "Population" [])])) ∧
    processRecord (some ["w1"]) (some ["other"]) (some (2000, 2005)) []
        ⟨"W1", "Cardiff", "Pop", "Population", 1999, 5⟩
      = (none, mset [] "W1" (Area.mk "W1" [("eng", "Cardiff")] [])) :=
  ⟨claim_C3_json_filter_order.1 none none ["zzz"] []
      ⟨"W1", "Cardiff", "Pop", "Population", 1999, 5⟩ (by decide) (by decide),
   claim_C3_json_filter_order.2.1 (some ["pop"]) (some (2000, 2005)) ["w1"] []
      "W1" "Cardiff" "Pop" "Population" 1999 5 (by decide) (by decide) (by decide) (by decide),
   claim_C3_json_filter_order.2.2 (some ["other"]) (some (2000, 2005)) ["w1"] []
      "W1" "Cardiff" "Pop" "Population" 1999 5 (by decide) (by decide) (by decide)⟩

theorem containsChars_nil_needle (hay : List Char) : containsChars hay [] = true := by
  cases hay with
  | nil => rfl
  | cons c t =>
    unfold containsChars
    rw [show isPrefixChars [] (c :: t) = true from rfl, Bool.true_or]

theorem contains_empty_search (base : String) : Areas.contains base "" = true :=
  containsChars_nil_needle (strToLower base).data

/-- Claim C9: the empty string is a substring of every string, so an area
filter set containing the empty string as a term admits every record of
every format — `Areas::contains` succeeds against every authority code
and every name, and all three readers' area-filter loop conditions pass. -/
theorem claim_C9_empty_filter_term :
    (∀ base : String, Areas.contains base "" = true) ∧
    (∀ ts : List String, "" ∈ ts → ∀ code nameEng nameCym : String,
      authorityCSVAreaMatch ts code nameEng nameCym = true) ∧
    (∀ ts : List String, "" ∈ ts → ∀ code nameEng : String,
      welshJSONAreaMatch ts code nameEng = true) ∧
    (∀ ts : List String, "" ∈ ts → ∀ code : String,
      byYearCSVAreaMatch ts code = true) := by
  refine ⟨contains_empty_search, ?_, ?_, ?_⟩
  · intro ts hmem code nameEng nameCym
    rw [authorityCSVAreaMatch, List.any_eq_true]
    refine ⟨"", hmem, ?_⟩
    rw [contains_empty_search]
    rw [Bool.true_or, Bool.true_or]
  · intro ts hmem code nameEng
    rw [welshJSONAreaMatch, List.any_eq_true]
    refine ⟨"", hmem, ?_⟩
    rw [contains_empty_search]
    rw [Bool.true_or]
  · intro ts hmem code
    rw [byYearCSVAreaMatch, List.any_eq_true]
    exact ⟨"", hmem, contains_empty_search code⟩

theorem claim_C9_empty_filter_term_witness :
    ("" ∈ ["swan", ""]) ∧
    authorityCSVAreaMatch ["swan", ""] "W06000011" "Swansea" "Abertawe" = true ∧
    welshJSONAreaMatch ["swan", ""] "W06000011" "Swansea" = true ∧
    byYearCSVAreaMatch ["swan", ""] "W06000011" = true :=
  ⟨by decide,
   claim_C9_empty_filter_term.2.1 ["swan", ""] (by decide) "W06000011" "Swansea" "Abertawe",
   claim_C9_empty_filter_term.2.2.1 ["swan", ""] (by decide) "W06000011" "Swansea",
   claim_C9_empty_filter_term.2.2.2 ["swan", ""] (by decide) "W06000011"⟩

theorem mget_map_val {V W : Type} (st : List (String × V)) (F : V → W) (k : String) :
    mget (st.map (fun p => (p.1, F p.2))) k = (mget st k).map F := by
  induction st with
  | nil => rfl
  | cons p t ih =>
    obtain ⟨k0, v0⟩ := p
    by_cases h0 : k0 = k
    · subst h0
      simp [mget]
    · simp [mget, h0, ih]

/-- Claim C8: the export is an object keyed by authority code; every area
entry is an object carrying a `names` field; its `measures` field is
present exactly when the area has at least one measure; and the empty
collection exports as the empty JSON object, not an empty array. -/
theorem claim_C8_toJSON_shape :
    Areas.toJSON [] = JVal.obj [] ∧
    (∀ items, Areas.toJSON [] ≠ JVal.arr items) ∧
    (∀ (st : List (String × Area)) (k : String) (a : Area), mget st k = some a →
      ∃ fields, (Areas.toJSON st).getField k = some (JVal.obj fields) ∧
        mget fields "names" = some a.getJsonNames ∧
        (mget fields "measures" ≠ none ↔ a.measures ≠ [])) := by
  refine ⟨rfl, ?_, ?_⟩
  · intro items h
    exact JVal.noConfusion h
  · intro st k a hget
    have hne : st.isEmpty = false := by
      cases st with
      | nil => simp [mget] at hget
      | cons p t => rfl
    have hjson : Areas.toJSON st = JVal.obj (st.map (fun p =>
        (p.1, JVal.obj
          ((if p.2.measures.isEmpty then [] else [("measures", p.2.getJsonMeasures)])
            ++ [("names", p.2.getJsonNames)])))) := by
      unfold Areas.toJSON
      rw [if_neg]
      rw [hne]
      exact Bool.false_ne_true
    refine ⟨(if a.measures.isEmpty then [] else [("measures", a.getJsonMeasures)])
      ++ [("names", a.getJsonNames)], ?_, ?_, ?_⟩
    · rw [hjson]
      show mget (st.map (fun p =>
          (p.1, JVal.obj
            ((if p.2.measures.isEmpty then [] else [("measures", p.2.getJsonMeasures)])
              ++ [("names", p.2.getJsonNames)])))) k
        = some (JVal.obj
            ((if a.measures.isEmpty then [] else [("measures", a.getJsonMeasures)])
              ++ [("names", a.getJsonNames)]))
      rw [mget_map_val st
        (fun v => JVal.obj
          ((if v.measures.isEmpty then [] else [("measures", v.getJsonMeasures)])
            ++ [("names", v.getJsonNames)])) k]
      rw [hget]
      rfl
    · cases hm : a.measures with
      | nil => rfl
      | cons q qs => rfl
    · cases hm : a.measures with
      | nil =>
        constructor
        · intro h
          exact absurd rfl h
        · intro h
          exact absurd rfl h
      | cons q qs =>
        constructor
        · intro _
          exact List.cons_ne_nil q qs
        · intro _
          intro h
          exact Option.noConfusion h

theorem claim_C8_toJSON_shape_witness :
    mget [("W06000011", Area.mk "W06000011" [("eng", "Swansea")] [])] "W06000011"
      = some (Area.mk "W06000011" [("eng", "Swansea")] []) ∧
    (∃ fields,
      (Areas.toJSON [("W06000011", Area.mk "W06000011" [("eng", "Swansea")] [])]).getField
        "W06000011" = some (JVal.obj fields) ∧
      mget fields "names" = some (Area.mk "W06000011" [("eng", "Swansea")] []).getJsonNames ∧
      (mget fields "measures" ≠ none ↔
        (Area.mk "W06000011" [("eng", "Swansea")] []).measures ≠ [])) :=
  ⟨by decide,
    claim_C8_toJSON_shape.2.2 [("W06000011", Area.mk "W06000011" [("eng", "Swansea")] [])]
      "W06000011" (Area.mk "W06000011" [("eng", "Swansea")] []) (by decide)⟩

/-- Claim C10: both `populate` overloads validate the stream before any
parsing; whenever the stream is good but its first line is empty — also
when the stream is entirely empty, and regardless of data on later
lines — they throw "File has no content" and leave the collection
unchanged, for every source type, column mapping and filter choice. -/
theorem claim_C10_first_line_check (S : RawSource) (type : SourceDataType)
    (cols : SourceColumn → Option String) (af mf : Option (List String))
    (yf : Option (Nat × Nat)) (st : List (String × Area))
    (hbad : S.bad = false) (hfirst : S.lines.headD "" = "") :
    Areas.populate S type cols af mf yf st = (some "File has no content", st) ∧
    Areas.populateNoFilters S type cols st = (some "File has no content", st) := by
  have hc : Areas.checkFileStatus S = some "File has no content" := by
    unfold Areas.checkFileStatus
    rw [if_neg, if_pos hfirst]
    rw [hbad]
    exact Bool.false_ne_true
  constructor
  · unfold Areas.populate
    rw [hc]
  · unfold Areas.populateNoFilters
    rw [hc]

theorem claim_C10_first_line_check_witness :
    (RawSource.mk false ["", "W06000011,10,20"] none).bad = false ∧
    (RawSource.mk false ["", "W06000011,10,20"] none).lines.headD "" = "" ∧
    Areas.populate (RawSource.mk false ["", "W06000011,10,20"] none)
        SourceDataType.AuthorityByYearCSV (fun _ => none) none none none []
      = (some "File has no content", []) :=
  ⟨rfl, rfl,
    (claim_C10_first_line_check (RawSource.mk false ["", "W06000011,10,20"] none)
      SourceDataType.AuthorityByYearCSV (fun _ => none) none none none [] rfl rfl).1⟩

/-! ### Invariant preservation

The `WF` hypotheses of the idempotence theorem are the `std::map` class
invariants; the following lemmas show every mutating operation of the API
preserves them, so every reachable state satisfies them. -/

theorem Measure.setValue_WFd (m : Measure) (k : Int) (v : Rat) (h : m.WFd) :
    (m.setValue k v).WFd :=
  WFmap_mset m.data k v h

theorem Measure.make_WFd (codename label : String) : (Measure.make codename label).WFd := by
  unfold Measure.make Measure.WFd WFmap
  exact List.Pairwise.nil

theorem Area.make_WF (code : String) : (Area.make code).WF := by
  refine ⟨List.Pairwise.nil, ?_, List.Pairwise.nil, ?_⟩ <;> intro p hp <;>
    exact absurd hp (List.not_mem_nil p)

theorem Area.setName_WF (a : Area) (lang name : String) (ha : a.WF) :
    ((a.setName lang name).2).WF := by
  obtain ⟨hn, hnk, hms, hmv⟩ := ha
  unfold Area.setName
  by_cases h : langExprMatch (strToLower lang) = true
  · rw [if_pos h]
    refine ⟨WFmap_mset _ _ _ hn, ?_, hms, hmv⟩
    intro p hp
    rcases mem_mset _ _ _ _ hp with he | hmem
    · rw [he]
      exact h
    · exact hnk p hmem
  · rw [if_neg h]
    exact ⟨hn, hnk, hms, hmv⟩

theorem mem_fset (d L : List (String × String)) (p : String × String)
    (hp : p ∈ fset d L) : p ∈ d ∨ p ∈ L := by
  induction L generalizing d with
  | nil => exact Or.inl hp
  | cons q t ih =>
    rw [fset_cons] at hp
    rcases ih _ hp with h | h
    · rcases mem_mset _ _ _ _ h with he | hd
      · exact Or.inr (by rw [he]; exact List.mem_cons_self _ _)
      · exact Or.inl hd
    · exact Or.inr (List.mem_cons_of_mem _ h)

theorem Area.setMeasuresLoop_WF (L : List (String × Measure)) (a : Area)
    (ha : a.WF) (hL : ∀ p ∈ L, p.2.WFd) : (Area.setMeasuresLoop a L).WF := by
  induction L generalizing a with
  | nil => exact ha
  | cons p t ih =>
    rw [Area.setMeasuresLoop_cons]
    exact ih _ (Area.setMeasure_WF a p.1 p.2 ha (hL p (List.mem_cons_self _ _)))
      (fun q hq => hL q (List.mem_cons_of_mem _ hq))

theorem Area.overwrite_WF (e a : Area) (he : e.WF) (ha : a.WF) :
    ((e.overwrite a).2).WF := by
  obtain ⟨hen, henk, hems, hemv⟩ := he
  obtain ⟨han, hank, hams, hamv⟩ := ha
  have hvalid : ∀ p ∈ a.names, langExprMatch (strToLower p.1) = true := by
    intro p hp
    rw [strToLower_fix_of_langExprMatch p.1 (hank p hp)]
    exact hank p hp
  have hlow : ∀ p ∈ a.names, strToLower p.1 = p.1 :=
    fun p hp => strToLower_fix_of_langExprMatch p.1 (hank p hp)
  rw [Area.overwrite_components e a hvalid hlow]
  apply Area.setMeasuresLoop_WF
  · refine ⟨WFmap_fset _ _ hen, ?_, hems, hemv⟩
    intro p hp
    rcases mem_fset _ _ _ hp with h | h
    · exact henk p h
    · exact hank p h
  · exact fun p hp => (hamv p hp).2

theorem Areas.setArea_WF (st : List (String × Area)) (k : String) (a : Area)
    (hst : Areas.WF st) (ha : a.WF) : Areas.WF ((Areas.setArea st k a).2) := by
  obtain ⟨hmap, hvals⟩ := hst
  unfold Areas.setArea
  cases hg : mget st k with
  | none =>
    refine ⟨WFmap_mset _ _ _ hmap, ?_⟩
    intro p hp
    rcases mem_mset _ _ _ _ hp with he | hmem
    · rw [he]
      exact ha
    · exact hvals p hmem
  | some e =>
    rw [mmodE_snd]
    refine ⟨WFmap_mmod _ _ _ hmap, ?_⟩
    intro p hp
    rcases mem_mmod_val _ _ _ _ hp with hmem | ⟨r, hr, hpe⟩
    · exact hvals p hmem
    · rw [hpe]
      exact Area.overwrite_WF r.2 a (hvals r hr) ha
